import Mathlib

/-!
Verification of the governance hook
(`plugins/governance-layer/hooks/governance_hook.py`).

The Python source is shallowly embedded below.  Text is modelled as
`List Char` (ASCII reading of the regex character classes), the regex
substitutions of `check_pii` are embedded as hand-derived deterministic
matchers together with a generic leftmost non-overlapping substitution
driver, and the four event handlers are embedded as pure functions from
an explicit environment (clock, environment variables, SIEM reachability,
`/dev/tty` contents) to an exit code and the list of emitted log lines.
-/

namespace Governance

/-! ## Character classes

ASCII reading of the classes appearing in the regex patterns of
`check_pii` and of Python's `\b` / `\w` (word characters). -/

def isDigitC (c : Char) : Bool := '0' ≤ c && c ≤ '9'

def isLowerC (c : Char) : Bool := 'a' ≤ c && c ≤ 'z'

def isUpperC (c : Char) : Bool := 'A' ≤ c && c ≤ 'Z'

def isLetterC (c : Char) : Bool := isLowerC c || isUpperC c

/-- Python regex word character `\w` (ASCII part): letter, digit or underscore. -/
def isWordC (c : Char) : Bool := isLetterC c || isDigitC c || c == '_'

/-- Character class `[a-zA-Z0-9._%+-]` (local part of the e-mail pattern). -/
def isLocalC (c : Char) : Bool :=
  isLetterC c || isDigitC c || c == '.' || c == '_' || c == '%' || c == '+' || c == '-'

/-- Character class `[a-zA-Z0-9.-]` (domain part of the e-mail pattern). -/
def isDomainC (c : Char) : Bool := isLetterC c || isDigitC c || c == '.' || c == '-'

/-- Character class `[ -]` (credit-card separator). -/
def isSepC (c : Char) : Bool := c == ' ' || c == '-'

/-- Word-ness of an optional character; the edge of the string counts as
non-word for `\b`. -/
def isWordO : Option Char → Bool
  | none => false
  | some c => isWordC c

/-- `\b`: a word boundary sits between two positions iff exactly one side is a
word character. -/
def wordB (p n : Option Char) : Bool := isWordO p != isWordO n

/-! ## The five PII matchers

Each matcher receives the character preceding the current position (`none` at
the start of the text, needed for `\b`) and the remaining text, and returns
the length of the match the Python `re` engine would produce at this exact
position (leftmost semantics are supplied by the drivers below), or `none`.
The backtracking behaviour of each pattern was derived by hand and is
explained at each definition. -/

/-- Position search for the `\.[a-zA-Z]{2,}` tail inside the maximal domain
run `dom`: the greedy `[a-zA-Z0-9.-]+` tries the longest prefix first, so the
dot index `l` is searched downwards from `dom.length - 1` to `1`; at a fixed
dot the `[a-zA-Z]{2,}` is greedy with nothing after it, hence it is the
maximal letter run, required to have length at least 2.  Returns the number
of characters of `dom` covered by `+`-part, dot and letters. -/
def emailDotSearch (dom : List Char) : Nat → Option Nat
  | 0 => none
  | l + 1 =>
    let m := ((dom.drop (l + 2)).takeWhile isLetterC).length
    if dom[l + 1]? = some '.' ∧ 2 ≤ m then some ((l + 1) + 1 + m)
    else emailDotSearch dom l

/-- Pattern `[a-zA-Z0-9._%+-]+@[a-zA-Z0-9.-]+\.[a-zA-Z]{2,}`.
The greedy local run cannot backtrack usefully (every shorter prefix is still
followed by a local character, never by `@`), so the local part is exactly the
maximal local run, which must be followed by `@`. -/
def matchEmail (_prev : Option Char) (s : List Char) : Option Nat :=
  let loc := s.takeWhile isLocalC
  if loc.length = 0 then none
  else
    match s.drop loc.length with
    | '@' :: rest =>
      let dom := rest.takeWhile isDomainC
      match emailDotSearch dom (dom.length - 1) with
      | some dlen => some (loc.length + 1 + dlen)
      | none => none
    | _ => none

/-- Pattern `\b\d{3}-\d{2}-\d{4}\b` (fixed 11-character shape). -/
def matchSSN (prev : Option Char) (s : List Char) : Option Nat :=
  if wordB prev s[0]? &&
     (s[0]?.any isDigitC) && (s[1]?.any isDigitC) && (s[2]?.any isDigitC) &&
     s[3]? == some '-' &&
     (s[4]?.any isDigitC) && (s[5]?.any isDigitC) &&
     s[6]? == some '-' &&
     (s[7]?.any isDigitC) && (s[8]?.any isDigitC) &&
     (s[9]?.any isDigitC) && (s[10]?.any isDigitC) &&
     wordB s[10]? s[11]?
  then some 11 else none

/-- Engine walk for `(?:\d[ -]*?){13,16}` followed by `\b`, after the first
digit has been consumed.  `i` is the number of digits consumed so far, `pos`
the offset just after the last consumed digit, `s` the remaining text.
Derivation from the backtracking order of Python `re` (validated against the
`re` module): the quantifier is greedy, so after each group iteration the
engine first tries another `\d`; on its failure the most recent choice point
is the quantifier exit (legal once 13 iterations are done), whose `\b` is
evaluated *before* the lazy `[ -]*?` of the current iteration is widened.
Hence: a next digit is always consumed; otherwise, once at least 13 digits
are consumed the match ends right here iff the next character is not a word
character (on a word character every remaining choice point dies, since
separators cannot absorb word characters and every earlier exit faces a
digit); with fewer than 13 digits a non-empty separator run must lead to the
next digit. -/
def ccWalkF : Nat → Nat → Nat → List Char → Option Nat
  | _, i, pos, [] =>
    -- at the end of the text `\b` holds after a digit; with 16 digits this is
    -- the `i = 16` exit (16 being at least 13, one test covers both exits)
    if 13 ≤ i then some pos else none
  | 0, i, pos, c :: _ =>
    -- fuel exhausted: only the non-recursive `i = 16` exit remains (never
    -- reached with the fuel `ccWalk` supplies)
    if i = 16 then (if isWordC c then none else some pos) else none
  | fuel + 1, i, pos, c :: t =>
    if i = 16 then (if isWordC c then none else some pos)
    else if isDigitC c then ccWalkF fuel (i + 1) (pos + 1) t
    else if 13 ≤ i then (if isWordC c then none else some pos)
    else if isSepC c then
      -- the whole separator run is `c` plus the maximal run inside `t`
      match t.dropWhile isSepC with
      | d :: t2 =>
        if isDigitC d then
          ccWalkF fuel (i + 1) (pos + 1 + (t.takeWhile isSepC).length + 1) t2
        else none
      | [] => none
    else none

/-- The walk itself; the fuel of `ccWalkF` is only a structural-termination
device, always sufficient (`ccWalkF_congr` below) since every step of the
walk consumes at least one character. -/
def ccWalk (i : Nat) (pos : Nat) (s : List Char) : Option Nat :=
  ccWalkF s.length i pos s

/-- Pattern `\b(?:\d[ -]*?){13,16}\b`: a leading word boundary, a first digit,
then the engine walk. -/
def matchCC (prev : Option Char) (s : List Char) : Option Nat :=
  match s with
  | c :: t => if isDigitC c && wordB prev (some c) then ccWalk 1 1 t else none
  | [] => none

/-- Pattern `\bEMP-\d{5}\b` (fixed 9-character shape). -/
def matchEMP (prev : Option Char) (s : List Char) : Option Nat :=
  if wordB prev s[0]? &&
     s[0]? == some 'E' && s[1]? == some 'M' && s[2]? == some 'P' && s[3]? == some '-' &&
     (s[4]?.any isDigitC) && (s[5]?.any isDigitC) && (s[6]?.any isDigitC) &&
     (s[7]?.any isDigitC) && (s[8]?.any isDigitC) &&
     wordB s[8]? s[9]?
  then some 9 else none

/-- Pattern `\bPROJ-[A-Z]{3,}\b`.  The `[A-Z]{3,}` is greedy with `\b` after
it; shortening the maximal run never helps (the following character would be
an upper-case letter, a word character on both sides), so the run is exactly
the maximal upper-case run, of length at least 3, followed by a non-word
position. -/
def matchPROJ (prev : Option Char) (s : List Char) : Option Nat :=
  if wordB prev s[0]? &&
     s[0]? == some 'P' && s[1]? == some 'R' && s[2]? == some 'O' && s[3]? == some 'J' &&
     s[4]? == some '-'
  then
    let caps := (s.drop 5).takeWhile isUpperC
    if 3 ≤ caps.length && !isWordO (s.drop 5)[caps.length]? then some (5 + caps.length)
    else none
  else none

/-! ## Generic `re.search` / `re.sub` drivers

`searchM` mirrors `re.search` (is there a match at any start position) and
`scanSub` mirrors `re.sub` (replace every leftmost non-overlapping match;
matching always runs against the original text, continuing right after each
match with the original preceding character for `\b`).  All five patterns
only produce non-empty matches, so a `some 0` result — which no matcher
returns — is conservatively treated as no match. -/

def searchM (M : Option Char → List Char → Option Nat) :
    Option Char → List Char → Bool
  | _, [] => false
  | prev, c :: t => (M prev (c :: t)).isSome || searchM M (some c) t

def scanSubF (M : Option Char → List Char → Option Nat) (tok : List Char) :
    Nat → Option Char → List Char → List Char
  | _, _, [] => []
  | 0, _, s => s
  | fuel + 1, prev, c :: t =>
    match M prev (c :: t) with
    | some (n + 1) =>
      tok ++ scanSubF M tok fuel (((c :: t).take (n + 1)).getLast?) (t.drop n)
    | _ => c :: scanSubF M tok fuel (some c) t

/-- Leftmost non-overlapping substitution; the fuel of `scanSubF` is only a
structural-termination device, always sufficient (`scanSubF_congr` below)
since every step consumes at least one character. -/
def scanSub (M : Option Char → List Char → Option Nat) (tok : List Char)
    (prev : Option Char) (s : List Char) : List Char :=
  scanSubF M tok s.length prev s

/-! ## `check_pii`, `classify_risk` -/

def tokEmail : List Char := "[REDACTED_EMAIL]".toList
def tokSSN : List Char := "[REDACTED_SSN]".toList
def tokCC : List Char := "[REDACTED_CREDIT_CARD]".toList
def tokEMP : List Char := "[REDACTED_EMPLOYEE_ID]".toList
def tokPROJ : List Char := "[REDACTED_PROJECT_CODE]".toList

/-- One `if re.search(pattern, redacted_text): redacted_text = re.sub(...)`
step of the `check_pii` loop. -/
def piiPass (M : Option Char → List Char → Option Nat) (tok : List Char)
    (s : List Char) : Bool × List Char :=
  if searchM M none s then (true, scanSub M tok none s) else (false, s)

/-- `check_pii` on an actual string: the five patterns applied in order, each
on the already-partially-redacted text, with `found_pii` the disjunction of
the per-pattern search results. -/
def checkPiiStr (s : List Char) : Bool × List Char :=
  let p1 := piiPass matchEmail tokEmail s
  let p2 := piiPass matchSSN tokSSN p1.2
  let p3 := piiPass matchCC tokCC p2.2
  let p4 := piiPass matchEMP tokEMP p3.2
  let p5 := piiPass matchPROJ tokPROJ p4.2
  (p1.1 || p2.1 || p3.1 || p4.1 || p5.1, p5.2)

/-! ## JSON values and Python `str()` -/

/-- A decoded JSON value (what `json.loads` produces).  Numbers are modelled
as integers; keys keep insertion order, later duplicates win on lookup as in
`json.loads`. -/
inductive Json where
  | null
  | bool (b : Bool)
  | num (n : Int)
  | str (s : List Char)
  | arr (xs : List Json)
  | obj (kvs : List (List Char × Json))

/-- Python `==` between a decoded JSON value and a string literal: only a
decoded string with the same characters compares equal. -/
def jsonEqStr (j : Json) (s : List Char) : Bool :=
  match j with
  | .str t => t == s
  | _ => false

/-- `data.get(key, default)` on a decoded JSON object. -/
def dictGet (kvs : List (List Char × Json)) (k : List Char) (d : Json) : Json :=
  match kvs.reverse.find? (fun kv => kv.1 == k) with
  | some kv => kv.2
  | none => d

/-- Python substring test `pat in hay`. -/
def containsSeq (hay pat : List Char) : Bool :=
  (List.range (hay.length + 1)).any fun i => pat.isPrefixOf (hay.drop i)

def sq : Char := Char.ofNat 39  -- apostrophe quote
def dq : Char := Char.ofNat 34  -- double quote
def bsl : Char := Char.ofNat 92 -- backslash

/-- Python `repr` of a string restricted to the printable-ASCII fragment the
claims exercise: quote choice as in CPython, escaping of backslash, of the
chosen quote and of newline / carriage return / tab. -/
def pyReprStr (s : List Char) : List Char :=
  let q : Char := if s.contains sq && !s.contains dq then dq else sq
  let esc : Char → List Char := fun c =>
    if c = bsl then [bsl, bsl]
    else if c = q then [bsl, q]
    else if c = '\n' then [bsl, 'n']
    else if c = '\r' then [bsl, 'r']
    else if c = '\t' then [bsl, 't']
    else [c]
  q :: (s.flatMap esc) ++ [q]

def lbr : Char := Char.ofNat 123 -- left curly brace
def rbr : Char := Char.ofNat 125 -- right curly brace

mutual

/-- Python `repr` of a decoded JSON object. -/
def pyRepr : Json → List Char
  | .null => "None".toList
  | .bool true => "True".toList
  | .bool false => "False".toList
  | .num n => (toString n).toList
  | .str s => pyReprStr s
  | .arr xs => '[' :: (List.intercalate ", ".toList (pyReprList xs)) ++ [']']
  | .obj kvs => lbr :: (List.intercalate ", ".toList (pyReprKVs kvs)) ++ [rbr]

def pyReprList : List Json → List (List Char)
  | [] => []
  | j :: js => pyRepr j :: pyReprList js

def pyReprKVs : List (List Char × Json) → List (List Char)
  | [] => []
  | kv :: kvs => (pyReprStr kv.1 ++ ':' :: ' ' :: pyRepr kv.2) :: pyReprKVs kvs

end

/-- Python `str()` of a decoded JSON object (`str` of a string is the string
itself, everything else falls back to `repr`). -/
def pyStr : Json → List Char
  | .str s => s
  | j => pyRepr j

/-! ## `check_pii` / `classify_risk` on JSON values -/

/-- `check_pii(text)`: non-strings are returned unchanged with no PII found
(the `isinstance(text, str)` guard). -/
def check_pii : Json → Bool × Json
  | .str s => ((checkPiiStr s).1, .str (checkPiiStr s).2)
  | j => (false, j)

inductive RiskL where
  | LOW
  | HIGH
  deriving DecidableEq

def lowerL (s : List Char) : List Char := s.map Char.toLower

def high_risk_keywords : List (List Char) :=
  ["confidential".toList, "secret".toList, "hr decision".toList,
   "medical diagnosis".toList, "financial advice".toList]

/-- `classify_risk(text)`: case-insensitive substring match against the fixed
keyword list; non-strings are LOW. -/
def classify_risk : Json → RiskL
  | .str s =>
    if high_risk_keywords.any (fun k => containsSeq (lowerL s) k) then .HIGH else .LOW
  | _ => .LOW

/-! ## Environment, audit sink, approval gate -/

inductive Decision where
  | ALLOWED
  | BLOCKED
  deriving DecidableEq

/-- One audit record as built by `log_audit`. -/
structure AuditEntry where
  timestamp : List Char
  event_type : List Char
  risk_level : RiskL
  decision : Decision
  details : Json
  model_version : List Char

/-- A line of the local audit log.  `logging.info` writes the serialized
entry as the message of an INFO line (after the `asctime - levelname - `
prefix of the configured format); `logging.error` writes an ERROR line. -/
inductive LogLine where
  | info (e : AuditEntry)
  | error (msg : List Char)

/-- Ambient process environment: clock, the two environment variables, the
reachability of the SIEM collector, and the `/dev/tty` channel (`none` when
the terminal cannot be opened, otherwise the line `readline` returns). -/
structure Env where
  now : List Char
  claude_model_version : Option (List Char)
  siem_url : Option (List Char)
  siem_ok : Bool
  tty : Option (List Char)

/-- `send_to_siem`: nothing without a configured URL; on a network failure the
exception is swallowed and an ERROR line is written locally. -/
def send_to_siem (env : Env) (_entry : AuditEntry) : List LogLine :=
  match env.siem_url with
  | none => []
  | some _ => if env.siem_ok then [] else [.error ("SIEM Logging Failed".toList)]

/-- `log_audit(event_type, details, risk_level="LOW", decision="ALLOWED")`:
builds the entry, appends its INFO line and forwards best-effort to the SIEM. -/
def log_audit (env : Env) (event_type : List Char) (details : Json)
    (risk_level : RiskL := .LOW) (decision : Decision := .ALLOWED) :
    AuditEntry × List LogLine :=
  let e : AuditEntry :=
    { timestamp := env.now
      event_type := event_type
      risk_level := risk_level
      decision := decision
      details := details
      model_version := (env.claude_model_version.getD ("unknown".toList)) }
  (e, .info e :: send_to_siem env e)

def isSpaceC (c : Char) : Bool := c == ' ' || c == '\t' || c == '\n' || c == '\r'

/-- Python `str.strip()` (common whitespace). -/
def pyStrip (s : List Char) : List Char :=
  ((s.dropWhile isSpaceC).reverse.dropWhile isSpaceC).reverse

/-- `request_user_approval`: False when `/dev/tty` cannot be opened (or any
exception occurs), otherwise True exactly when the stripped, lower-cased
response equals `y`. -/
def request_user_approval (env : Env) : Bool :=
  match env.tty with
  | none => false
  | some line => lowerL (pyStrip line) == ['y']

/-! ## Event handlers

Each handler returns the process exit code together with the log lines it
appended, in emission order. -/

def handle_session_start (env : Env) (kvs : List (List Char × Json)) :
    Nat × List LogLine :=
  let sid := dictGet kvs ("session_id".toList) .null
  let r := log_audit env ("SESSION_START".toList) (.obj [("session_id".toList, sid)])
  (0, r.2)

def handle_user_prompt (env : Env) (kvs : List (List Char × Json)) :
    Nat × List LogLine :=
  let prompt := dictGet kvs ("prompt".toList) (.str [])
  let sid := dictGet kvs ("session_id".toList) .null
  let pii := check_pii prompt
  let risk := classify_risk prompt
  let r1 := log_audit env ("INPUT_CHECK".toList)
      (.obj [("session_id".toList, sid), ("original_prompt".toList, prompt),
             ("redacted_prompt".toList, pii.2), ("has_pii".toList, .bool pii.1)])
      risk
  if pii.1 then (1, r1.2)
  else if risk = .HIGH then
    let approved := request_user_approval env
    if approved then
      let r2 := log_audit env ("HITL_APPROVAL".toList)
          (.obj [("session_id".toList, sid), ("risk".toList, .str ("HIGH".toList)),
                 ("approved".toList, .bool true)])
      (0, r1.2 ++ r2.2)
    else
      let r2 := log_audit env ("HITL_APPROVAL".toList)
          (.obj [("session_id".toList, sid), ("risk".toList, .str ("HIGH".toList)),
                 ("approved".toList, .bool false)])
          .LOW .BLOCKED
      (1, r1.2 ++ r2.2)
  else (0, r1.2)

def handle_pre_tool_use (env : Env) (kvs : List (List Char × Json)) :
    Nat × List LogLine :=
  let tool_name := dictGet kvs ("tool_name".toList) .null
  let tool_input := dictGet kvs ("tool_input".toList) .null
  let sid := dictGet kvs ("session_id".toList) .null
  let r := log_audit env ("TOOL_USE".toList)
      (.obj [("session_id".toList, sid), ("tool_name".toList, tool_name),
             ("tool_input".toList, tool_input)])
  if jsonEqStr tool_name ("Bash".toList) && containsSeq (pyStr tool_input) ("rm -rf /".toList)
  then (2, r.2)
  else (0, r.2)

def handle_post_tool_use (env : Env) (kvs : List (List Char × Json)) :
    Nat × List LogLine :=
  let tool_name := dictGet kvs ("tool_name".toList) .null
  let tool_result := dictGet kvs ("tool_result".toList) .null
  let sid := dictGet kvs ("session_id".toList) .null
  let content : List Char :=
    match tool_result with
    | .obj kvs2 => pyStr (dictGet kvs2 ("content".toList) (.str []))
    | j => pyStr j
  let pii := checkPiiStr content
  let r := log_audit env ("TOOL_OUTPUT_CHECK".toList)
      (.obj [("session_id".toList, sid), ("tool_name".toList, tool_name),
             ("has_pii".toList, .bool pii.1),
             ("content_snippet".toList, .str (content.take 200))])
  (0, r.2)

/-! ## Decision router (`main`) -/

def evSessionStart : List Char := "SessionStart".toList
def evUserPromptSubmit : List Char := "UserPromptSubmit".toList
def evPreToolUse : List Char := "PreToolUse".toList
def evPostToolUse : List Char := "PostToolUse".toList

/-- What reading and `json.loads`-parsing standard input produced: nothing,
an unparseable payload, or a decoded JSON value. -/
inductive Stdin where
  | emptyIn
  | badJson
  | payload (j : Json)

inductive HitlMode where
  | BLOCK
  | INTERACTIVE
  deriving DecidableEq

/-- The policy configuration the specification describes (an optional JSON
file at a fixed per-user path).  The hook reads no such file, so the whole
run is threaded over an arbitrary `PolicyConfig` value that no embedded
definition consumes; theorems below make this independence explicit. -/
structure PolicyConfig where
  piiPatterns : List (List Char × List Char)
  highRiskKeywords : List (List Char)
  hitlMode : HitlMode
  auditEndpoint : Option (List Char)
  auditToken : Option (List Char)

/-- A handler body applied to the decoded payload.  Every handler immediately
calls `data.get(...)`; on a non-dict payload this raises an uncaught
`AttributeError`, which terminates the interpreter with exit code 1 and no
log lines. -/
def withObjPayload (j : Json) (h : List (List Char × Json) → Nat × List LogLine) :
    Nat × List LogLine :=
  match j with
  | .obj kvs => h kvs
  | _ => (1, [])

/-- `main()` after argument parsing: empty or unparseable standard input
exits 0 before any handler runs; a decoded payload is dispatched on the
`--event` selector; unknown selectors exit 0. -/
def mainRun (_cfg : PolicyConfig) (env : Env) (event : List Char) (input : Stdin) :
    Nat × List LogLine :=
  match input with
  | .emptyIn => (0, [])
  | .badJson => (0, [])
  | .payload j =>
    if event == evSessionStart then withObjPayload j (handle_session_start env)
    else if event == evUserPromptSubmit then withObjPayload j (handle_user_prompt env)
    else if event == evPreToolUse then withObjPayload j (handle_pre_tool_use env)
    else if event == evPostToolUse then withObjPayload j (handle_post_tool_use env)
    else (0, [])

/-- Projection of the log to the audit entries of its INFO lines. -/
def entriesOf (ls : List LogLine) : List AuditEntry :=
  ls.filterMap fun l => match l with | .info e => some e | .error _ => none

/-- Risk classification as the specification words it (§4.2): case-insensitive
substring match against the *configured* keyword list.  Stated from the
specification for comparison with the source's `classify_risk`, which uses a
fixed built-in list. -/
def specClassifyRisk (cfg : PolicyConfig) (text : List Char) : RiskL :=
  if cfg.highRiskKeywords.any (fun k => containsSeq (lowerL text) (lowerL k))
  then .HIGH else .LOW

end Governance

namespace Governance

/-! ## Shared concrete values and small helpers for the theorems -/

/-- Extraction of one field of an entry's `details` payload. -/
def detailOf (e : AuditEntry) (k : List Char) : Json :=
  match e.details with
  | .obj kvs => dictGet kvs k .null
  | _ => .null

/-- The model-version tag `log_audit` stores. -/
def modelTag (env : Env) : List Char := env.claude_model_version.getD ("unknown".toList)

def envBase : Env :=
  { now := "2026-01-01T00:00:00".toList, claude_model_version := none,
    siem_url := none, siem_ok := true, tty := none }

def cfgBase : PolicyConfig :=
  { piiPatterns := [], highRiskKeywords := [], hitlMode := .INTERACTIVE,
    auditEndpoint := none, auditToken := none }

def recognizedEvent (event : List Char) : Bool :=
  event == evSessionStart || event == evUserPromptSubmit ||
  event == evPreToolUse || event == evPostToolUse

theorem entriesOf_cons_info (e : AuditEntry) (ls : List LogLine) :
    entriesOf (.info e :: ls) = e :: entriesOf ls := by
  simp [entriesOf]

theorem entriesOf_cons_error (m : List Char) (ls : List LogLine) :
    entriesOf (.error m :: ls) = entriesOf ls := by
  simp [entriesOf]

theorem entriesOf_append (l1 l2 : List LogLine) :
    entriesOf (l1 ++ l2) = entriesOf l1 ++ entriesOf l2 := by
  simp [entriesOf, List.filterMap_append]

theorem entriesOf_send_to_siem (env : Env) (e : AuditEntry) :
    entriesOf (send_to_siem env e) = [] := by
  unfold send_to_siem
  cases env.siem_url with
  | none => simp [entriesOf]
  | some u =>
    by_cases h : env.siem_ok <;> simp [entriesOf, h]

theorem entriesOf_log_audit (env : Env) (et : List Char) (d : Json) (r : RiskL)
    (dec : Decision) :
    entriesOf (log_audit env et d r dec).2 = [(log_audit env et d r dec).1] := by
  unfold log_audit
  rw [entriesOf_cons_info, entriesOf_send_to_siem]


/-! ## Normal forms of `handle_user_prompt` -/

def promptOf (kvs : List (List Char × Json)) : Json := dictGet kvs ("prompt".toList) (.str [])

def sidOf (kvs : List (List Char × Json)) : Json := dictGet kvs ("session_id".toList) .null

/-- The `INPUT_CHECK` details payload. -/
def inputDetails (kvs : List (List Char × Json)) : Json :=
  .obj [("session_id".toList, sidOf kvs), ("original_prompt".toList, promptOf kvs),
        ("redacted_prompt".toList, (check_pii (promptOf kvs)).2),
        ("has_pii".toList, .bool (check_pii (promptOf kvs)).1)]

/-- The `HITL_APPROVAL` details payload. -/
def hitlDetails (kvs : List (List Char × Json)) (b : Bool) : Json :=
  .obj [("session_id".toList, sidOf kvs), ("risk".toList, .str ("HIGH".toList)),
        ("approved".toList, .bool b)]

theorem hup_pii (env : Env) (kvs : List (List Char × Json))
    (h : (check_pii (promptOf kvs)).1 = true) :
    handle_user_prompt env kvs =
      (1, (log_audit env ("INPUT_CHECK".toList) (inputDetails kvs)
            (classify_risk (promptOf kvs))).2) := by
  simp only [handle_user_prompt, promptOf, sidOf, inputDetails] at h ⊢
  rw [h]
  simp

theorem hup_low (env : Env) (kvs : List (List Char × Json))
    (h : (check_pii (promptOf kvs)).1 = false)
    (hr : classify_risk (promptOf kvs) ≠ .HIGH) :
    handle_user_prompt env kvs =
      (0, (log_audit env ("INPUT_CHECK".toList) (inputDetails kvs)
            (classify_risk (promptOf kvs))).2) := by
  simp only [handle_user_prompt, promptOf, sidOf, inputDetails] at h hr ⊢
  rw [h]
  simp only [Bool.false_eq_true, if_false]
  rw [if_neg hr]

theorem hup_high_approved (env : Env) (kvs : List (List Char × Json))
    (h : (check_pii (promptOf kvs)).1 = false)
    (hr : classify_risk (promptOf kvs) = .HIGH)
    (ha : request_user_approval env = true) :
    handle_user_prompt env kvs =
      (0,
       (log_audit env ("INPUT_CHECK".toList) (inputDetails kvs)
          (classify_risk (promptOf kvs))).2 ++
       (log_audit env ("HITL_APPROVAL".toList) (hitlDetails kvs true)).2) := by
  simp only [handle_user_prompt, promptOf, sidOf, inputDetails, hitlDetails] at h hr ha ⊢
  rw [h]
  simp only [Bool.false_eq_true, if_false]
  rw [if_pos hr, if_pos ha]

theorem hup_high_denied (env : Env) (kvs : List (List Char × Json))
    (h : (check_pii (promptOf kvs)).1 = false)
    (hr : classify_risk (promptOf kvs) = .HIGH)
    (ha : request_user_approval env = false) :
    handle_user_prompt env kvs =
      (1,
       (log_audit env ("INPUT_CHECK".toList) (inputDetails kvs)
          (classify_risk (promptOf kvs))).2 ++
       (log_audit env ("HITL_APPROVAL".toList) (hitlDetails kvs false) .LOW .BLOCKED).2) := by
  simp only [handle_user_prompt, promptOf, sidOf, inputDetails, hitlDetails] at h hr ha ⊢
  rw [h]
  simp only [Bool.false_eq_true, if_false]
  rw [if_pos hr, if_neg (by rw [ha]; exact Bool.false_ne_true)]


/-! ## Claim C1 -/

def kvsC1 : List (List Char × Json) :=
  [("prompt".toList, .str ("contact me at a@b.com".toList))]

/-- C1: whenever the prompt of a `UserPromptSubmit` payload contains PII, the
handler records one `INPUT_CHECK` entry holding the original prompt, the
redacted prompt and the detected risk level, and exits with code 1, for every
environment (hence regardless of risk level and of terminal state); on the
concrete prompt `contact me at a@b.com` the exit code is 1, the entry records
`has_pii = true` and the redacted text `contact me at [REDACTED_EMAIL]`. -/
theorem claim_C1 :
    (∀ (env : Env) (kvs : List (List Char × Json)),
      (check_pii (promptOf kvs)).1 = true →
      (handle_user_prompt env kvs).1 = 1 ∧
      entriesOf (handle_user_prompt env kvs).2 =
        [{ timestamp := env.now
           event_type := "INPUT_CHECK".toList
           risk_level := classify_risk (promptOf kvs)
           decision := .ALLOWED
           details := inputDetails kvs
           model_version := modelTag env }]) ∧
    ((mainRun cfgBase envBase evUserPromptSubmit (.payload (.obj kvsC1))).1 = 1 ∧
     (entriesOf (mainRun cfgBase envBase evUserPromptSubmit
         (.payload (.obj kvsC1))).2).map
         (fun e => (detailOf e ("has_pii".toList), detailOf e ("redacted_prompt".toList))) =
       [(.bool true, .str ("contact me at [REDACTED_EMAIL]".toList))]) := by
  constructor
  · intro env kvs h
    rw [hup_pii env kvs h]
    refine ⟨rfl, ?_⟩
    rw [entriesOf_log_audit]
    simp [log_audit, modelTag]
  · exact ⟨rfl, rfl⟩

theorem claim_C1_witness :
    (check_pii (promptOf kvsC1)).1 = true ∧
    (handle_user_prompt envBase kvsC1).1 = 1 :=
  ⟨rfl, (claim_C1.1 envBase kvsC1 rfl).1⟩

/-! ## Claim C10 -/

/-- C10: the `INPUT_CHECK` entry of every `UserPromptSubmit` invocation
carries decision `ALLOWED`, even when the handler then blocks: a PII block
leaves that single `ALLOWED` entry and only exits 1, and an HITL denial adds
a second `HITL_APPROVAL` entry with decision `BLOCKED`. -/
theorem claim_C10 :
    ∀ (env : Env) (kvs : List (List Char × Json)),
      ∃ e0, (entriesOf (handle_user_prompt env kvs).2).head? = some e0 ∧
        e0.event_type = "INPUT_CHECK".toList ∧ e0.decision = .ALLOWED ∧
        ((check_pii (promptOf kvs)).1 = true →
          entriesOf (handle_user_prompt env kvs).2 = [e0] ∧
          (handle_user_prompt env kvs).1 = 1) ∧
        ((check_pii (promptOf kvs)).1 = false →
         classify_risk (promptOf kvs) = .HIGH →
         request_user_approval env = false →
          ∃ e1, entriesOf (handle_user_prompt env kvs).2 = [e0, e1] ∧
            e1.event_type = "HITL_APPROVAL".toList ∧ e1.decision = .BLOCKED ∧
            (handle_user_prompt env kvs).1 = 1) := by
  intro env kvs
  refine ⟨(log_audit env ("INPUT_CHECK".toList) (inputDetails kvs)
      (classify_risk (promptOf kvs))).1, ?_, rfl, rfl, ?_, ?_⟩
  · by_cases h : (check_pii (promptOf kvs)).1
    · rw [hup_pii env kvs h, entriesOf_log_audit]; rfl
    · by_cases hr : classify_risk (promptOf kvs) = .HIGH
      · by_cases ha : request_user_approval env
        · rw [hup_high_approved env kvs (by simpa using h) hr ha, entriesOf_append,
            entriesOf_log_audit]
          rfl
        · rw [hup_high_denied env kvs (by simpa using h) hr (by simpa using ha),
            entriesOf_append, entriesOf_log_audit]
          rfl
      · rw [hup_low env kvs (by simpa using h) hr, entriesOf_log_audit]
        rfl
  · intro h
    rw [hup_pii env kvs h, entriesOf_log_audit]
    exact ⟨rfl, rfl⟩
  · intro h hr ha
    rw [hup_high_denied env kvs h hr ha]
    refine ⟨(log_audit env ("HITL_APPROVAL".toList) (hitlDetails kvs false) .LOW .BLOCKED).1,
      ?_, rfl, rfl, rfl⟩
    rw [entriesOf_append, entriesOf_log_audit, entriesOf_log_audit]
    rfl

theorem claim_C10_witness :
    ∃ e0, (entriesOf (handle_user_prompt envBase kvsC1).2).head? = some e0 ∧
      e0.event_type = "INPUT_CHECK".toList ∧ e0.decision = .ALLOWED :=
  match claim_C10 envBase kvsC1 with
  | ⟨e0, h1, h2, h3, _, _⟩ => ⟨e0, h1, h2, h3⟩


/-! ## Claim C3 -/

/-- A payload that is not a JSON object writes nothing and exits 1 on the four
recognized events (handler crash) and 0 otherwise. -/
theorem mainRun_nonobj_eq (cfg : PolicyConfig) (env : Env) (event : List Char) (j : Json)
    (hj : ∀ kvs, j ≠ .obj kvs) :
    mainRun cfg env event (.payload j) =
      ((if recognizedEvent event then 1 else 0), []) := by
  have hobj : ∀ h : List (List Char × Json) → Nat × List LogLine,
      withObjPayload j h = (1, []) := by
    intro h
    cases j with
    | obj kvs2 => exact absurd rfl (hj kvs2)
    | null => rfl
    | bool b => rfl
    | num n => rfl
    | str s => rfl
    | arr xs => rfl
  by_cases h1 : event = evSessionStart
  · subst h1; rw [show mainRun cfg env evSessionStart (.payload j) =
      withObjPayload j (handle_session_start env) from rfl, hobj]; rfl
  · by_cases h2 : event = evUserPromptSubmit
    · subst h2; rw [show mainRun cfg env evUserPromptSubmit (.payload j) =
        withObjPayload j (handle_user_prompt env) from rfl, hobj]; rfl
    · by_cases h3 : event = evPreToolUse
      · subst h3; rw [show mainRun cfg env evPreToolUse (.payload j) =
          withObjPayload j (handle_pre_tool_use env) from rfl, hobj]; rfl
      · by_cases h4 : event = evPostToolUse
        · subst h4; rw [show mainRun cfg env evPostToolUse (.payload j) =
            withObjPayload j (handle_post_tool_use env) from rfl, hobj]; rfl
        · have hstep : mainRun cfg env event (.payload j) =
              (if event == evSessionStart then withObjPayload j (handle_session_start env)
               else if event == evUserPromptSubmit then withObjPayload j (handle_user_prompt env)
               else if event == evPreToolUse then withObjPayload j (handle_pre_tool_use env)
               else if event == evPostToolUse then withObjPayload j (handle_post_tool_use env)
               else (0, [])) := rfl
          have hb : recognizedEvent event = false := by
            simp [recognizedEvent, h1, h2, h3, h4]
          rw [hstep, if_neg (by simpa using h1), if_neg (by simpa using h2),
            if_neg (by simpa using h3), if_neg (by simpa using h4), hb]
          rfl

/-- Counterexample to C3 as stated: the payload `5` is malformed input (valid
JSON but not an event object), yet the process does not exit 0: the handler
crashes on `data.get` with an uncaught `AttributeError` and the interpreter
exits with code 1 (still writing no audit entry). -/
theorem claim_C3_counterexample :
    (mainRun cfgBase envBase evUserPromptSubmit (.payload (.num 5))) = (1, []) ∧
    (1 : Nat) ≠ 0 :=
  ⟨rfl, by decide⟩

/-- C3 amended: empty or unparseable standard input exits 0 with zero audit
entries for every event selector; a parseable payload that is not a JSON
object also writes zero entries but exits 1 (handler crash) on the four
recognized events and 0 on unknown ones. -/
theorem claim_C3_amended :
    ∀ (cfg : PolicyConfig) (env : Env) (event : List Char),
      mainRun cfg env event .emptyIn = (0, []) ∧
      mainRun cfg env event .badJson = (0, []) ∧
      ∀ j : Json, (∀ kvs, j ≠ .obj kvs) →
        mainRun cfg env event (.payload j) =
          ((if recognizedEvent event then 1 else 0), []) := by
  intro cfg env event
  exact ⟨rfl, rfl, fun j hj => mainRun_nonobj_eq cfg env event j hj⟩

theorem claim_C3_amended_witness :
    mainRun cfgBase envBase evPreToolUse .emptyIn = (0, []) ∧
    mainRun cfgBase envBase evPreToolUse (.payload (.num 5)) =
      ((if recognizedEvent evPreToolUse then 1 else 0), []) :=
  ⟨(claim_C3_amended cfgBase envBase evPreToolUse).1,
   (claim_C3_amended cfgBase envBase evPreToolUse).2.2 (.num 5)
     (fun _ h => Json.noConfusion h)⟩

/-! ## Claim C4 -/

def cfgBlockMode : PolicyConfig :=
  { piiPatterns := [], highRiskKeywords := [], hitlMode := .BLOCK,
    auditEndpoint := none, auditToken := none }

def promptConf : List Char := "this is confidential".toList

def kvsConf : List (List Char × Json) := [("prompt".toList, .str promptConf)]

def envTtyY : Env := { envBase with tty := some ("y".toList) }

/-- Counterexample to C4 as stated: with a configuration whose HITL mode is
BLOCK, a HIGH-risk PII-free prompt is *not* unconditionally denied — the code
reads no configuration, always consults the terminal, and here an affirmative
answer makes the process exit 0. -/
theorem claim_C4_counterexample :
    cfgBlockMode.hitlMode = .BLOCK ∧
    (check_pii (.str promptConf)).1 = false ∧
    classify_risk (.str promptConf) = .HIGH ∧
    (mainRun cfgBlockMode envTtyY evUserPromptSubmit
      (.payload (.obj kvsConf))).1 = 0 :=
  ⟨rfl, rfl, rfl, rfl⟩

/-- C4 amended: the code has no HITL mode.  For every configuration value and
every PII-free HIGH-risk prompt the Approval Gate is consulted, a second
`HITL_APPROVAL` entry reflecting the outcome is recorded, and the process
exits 0 exactly when approved (else 1); the gate returns true only on an
explicit `y` (case-insensitive, stripped), and returns false whenever the
terminal cannot be opened. -/
theorem claim_C4_amended :
    (∀ (cfg : PolicyConfig) (env : Env) (kvs : List (List Char × Json)),
      (check_pii (promptOf kvs)).1 = false →
      classify_risk (promptOf kvs) = .HIGH →
      ((mainRun cfg env evUserPromptSubmit (.payload (.obj kvs))).1 =
        (if request_user_approval env then 0 else 1)) ∧
      (∃ e0 e1,
        entriesOf (mainRun cfg env evUserPromptSubmit (.payload (.obj kvs))).2 =
          [e0, e1] ∧
        e1.event_type = "HITL_APPROVAL".toList ∧
        e1.decision = (if request_user_approval env then .ALLOWED else .BLOCKED) ∧
        detailOf e1 ("approved".toList) = .bool (request_user_approval env))) ∧
    (∀ env : Env, env.tty = none → request_user_approval env = false) ∧
    (∀ (env : Env) (line : List Char), env.tty = some line →
      (request_user_approval env = true ↔ lowerL (pyStrip line) = ['y'])) := by
  refine ⟨?_, ?_, ?_⟩
  · intro cfg env kvs h hr
    have hmain : mainRun cfg env evUserPromptSubmit (.payload (.obj kvs)) =
        handle_user_prompt env kvs := rfl
    rw [hmain]
    by_cases ha : request_user_approval env
    · rw [hup_high_approved env kvs h hr ha, if_pos ha]
      refine ⟨rfl, ?_⟩
      refine ⟨(log_audit env ("INPUT_CHECK".toList) (inputDetails kvs)
          (classify_risk (promptOf kvs))).1,
        (log_audit env ("HITL_APPROVAL".toList) (hitlDetails kvs true)).1, ?_, rfl, ?_, ?_⟩
      · rw [entriesOf_append, entriesOf_log_audit, entriesOf_log_audit]; rfl
      · rw [if_pos ha]; rfl
      · rw [ha]; rfl
    · have ha2 : request_user_approval env = false := by simpa using ha
      rw [hup_high_denied env kvs h hr ha2, if_neg ha]
      refine ⟨rfl, ?_⟩
      refine ⟨(log_audit env ("INPUT_CHECK".toList) (inputDetails kvs)
          (classify_risk (promptOf kvs))).1,
        (log_audit env ("HITL_APPROVAL".toList) (hitlDetails kvs false) .LOW .BLOCKED).1,
        ?_, rfl, ?_, ?_⟩
      · rw [entriesOf_append, entriesOf_log_audit, entriesOf_log_audit]; rfl
      · rw [if_neg ha]; rfl
      · rw [ha2]; rfl
  · intro env h
    unfold request_user_approval
    rw [h]
  · intro env line h
    unfold request_user_approval
    rw [h]
    constructor
    · intro hb; exact beq_iff_eq.mp hb
    · intro hb; exact beq_iff_eq.mpr hb

theorem claim_C4_amended_witness :
    (check_pii (promptOf kvsConf)).1 = false ∧
    classify_risk (promptOf kvsConf) = .HIGH ∧
    (mainRun cfgBlockMode envBase evUserPromptSubmit
       (.payload (.obj kvsConf))).1 =
      (if request_user_approval envBase then 0 else 1) ∧
    envTtyY.tty = some ("y".toList) ∧
    (request_user_approval envTtyY = true ↔ lowerL (pyStrip ("y".toList)) = ['y']) :=
  ⟨rfl, rfl,
   (claim_C4_amended.1 cfgBlockMode envBase kvsConf rfl rfl).1,
   rfl,
   claim_C4_amended.2.2 envTtyY ("y".toList) rfl⟩

/-! ## Claim C5 -/

def kvsBash : List (List Char × Json) :=
  [("tool_name".toList, .str ("Bash".toList)),
   ("tool_input".toList, .obj [("command".toList, .str ("rm -rf /".toList))])]

/-- C5: every `PreToolUse` invocation records exactly one `TOOL_USE` entry
carrying the tool name and input; the exit code is 2 exactly when the tool is
`Bash` and the stringified input contains `rm -rf /`, and 0 otherwise; on the
concrete Bash payload the exit code is 2, distinct from the governance exit
code 1. -/
theorem claim_C5 :
    (∀ (env : Env) (kvs : List (List Char × Json)),
      entriesOf (handle_pre_tool_use env kvs).2 =
        [{ timestamp := env.now
           event_type := "TOOL_USE".toList
           risk_level := .LOW
           decision := .ALLOWED
           details := .obj [("session_id".toList, sidOf kvs),
                            ("tool_name".toList, dictGet kvs ("tool_name".toList) .null),
                            ("tool_input".toList, dictGet kvs ("tool_input".toList) .null)]
           model_version := modelTag env }] ∧
      (handle_pre_tool_use env kvs).1 =
        (if jsonEqStr (dictGet kvs ("tool_name".toList) .null) ("Bash".toList) &&
            containsSeq (pyStr (dictGet kvs ("tool_input".toList) .null)) ("rm -rf /".toList)
         then 2 else 0)) ∧
    ((mainRun cfgBase envBase evPreToolUse (.payload (.obj kvsBash))).1 = 2 ∧
     (2 : Nat) ≠ 1 ∧ (2 : Nat) ≠ 0) := by
  constructor
  · intro env kvs
    unfold handle_pre_tool_use
    by_cases hc : jsonEqStr (dictGet kvs ("tool_name".toList) .null) ("Bash".toList) &&
        containsSeq (pyStr (dictGet kvs ("tool_input".toList) .null)) ("rm -rf /".toList)
    · rw [if_pos hc, if_pos hc]
      constructor
      · rw [entriesOf_log_audit]
        simp [log_audit, modelTag, sidOf]
      · rfl
    · rw [if_neg hc, if_neg hc]
      constructor
      · rw [entriesOf_log_audit]
        simp [log_audit, modelTag, sidOf]
      · rfl
  · exact ⟨rfl, by decide, by decide⟩


/-! ## Claim C6 -/

/-- Counterexample to C6 as stated: the handled invocation below (HIGH-risk
prompt, no PII, approval unavailable) makes the local log grow by two lines,
not exactly one. -/
theorem claim_C6_counterexample :
    ((mainRun cfgBase envBase evUserPromptSubmit
        (.payload (.obj kvsConf))).2).length = 2 ∧ (2 : Nat) ≠ 1 :=
  ⟨rfl, by decide⟩

theorem log_audit_lines_no_siem (env : Env) (h : env.siem_url = none)
    (et : List Char) (d : Json) (r : RiskL) (dec : Decision) :
    (log_audit env et d r dec).2 = [.info (log_audit env et d r dec).1] := by
  simp [log_audit, send_to_siem, h]

/-- C6 amended: with no remote collector configured, every line the local log
gains is one INFO line holding one audit record with the process timestamp
and the model-version tag from the environment variable; each handled
(object-payload, recognized-event) invocation writes exactly one such line,
except a `UserPromptSubmit` with no PII and HIGH risk, which writes two (the
`INPUT_CHECK` line plus the HITL outcome line). -/
theorem claim_C6_amended :
    ∀ (cfg : PolicyConfig) (env : Env), env.siem_url = none →
    ∀ (event : List Char) (kvs : List (List Char × Json)),
      (∀ l ∈ (mainRun cfg env event (.payload (.obj kvs))).2,
        ∃ e, l = .info e ∧ e.timestamp = env.now ∧ e.model_version = modelTag env) ∧
      (recognizedEvent event = true →
        ((mainRun cfg env event (.payload (.obj kvs))).2).length =
          (if event = evUserPromptSubmit ∧ (check_pii (promptOf kvs)).1 = false ∧
              classify_risk (promptOf kvs) = .HIGH
           then 2 else 1)) := by
  intro cfg env hs event kvs
  have hline : ∀ (et : List Char) (d : Json) (r : RiskL) (dec : Decision),
      ∀ l ∈ (log_audit env et d r dec).2,
        ∃ e, l = .info e ∧ e.timestamp = env.now ∧ e.model_version = modelTag env := by
    intro et d r dec l hl
    rw [log_audit_lines_no_siem env hs] at hl
    simp at hl
    exact ⟨_, hl, rfl, rfl⟩
  by_cases h1 : event = evSessionStart
  · have hm : mainRun cfg env event (.payload (.obj kvs)) = handle_session_start env kvs := by
      subst h1; rfl
    rw [hm]
    constructor
    · intro l hl
      exact hline _ _ _ _ l hl
    · intro _
      rw [if_neg (by rw [h1]; intro hc; exact absurd hc.1 (by decide))]
      unfold handle_session_start
      rw [log_audit_lines_no_siem env hs]
      rfl
  · by_cases h2 : event = evUserPromptSubmit
    · have hm : mainRun cfg env event (.payload (.obj kvs)) = handle_user_prompt env kvs := by
        subst h2; rfl
      rw [hm]
      by_cases hp : (check_pii (promptOf kvs)).1
      · rw [hup_pii env kvs hp]
        constructor
        · exact fun l hl => hline _ _ _ _ l hl
        · intro _
          rw [if_neg (by intro hc; rw [hp] at hc; exact absurd hc.2.1 (by decide)),
            log_audit_lines_no_siem env hs]
          rfl
      · have hp2 : (check_pii (promptOf kvs)).1 = false := by simpa using hp
        by_cases hr : classify_risk (promptOf kvs) = .HIGH
        · by_cases ha : request_user_approval env
          · rw [hup_high_approved env kvs hp2 hr ha]
            constructor
            · intro l hl
              simp only [List.mem_append] at hl
              rcases hl with hl | hl
              · exact hline _ _ _ _ l hl
              · exact hline _ _ _ _ l hl
            · intro _
              rw [if_pos ⟨h2, hp2, hr⟩]
              rw [log_audit_lines_no_siem env hs, log_audit_lines_no_siem env hs]
              rfl
          · have ha2 : request_user_approval env = false := by simpa using ha
            rw [hup_high_denied env kvs hp2 hr ha2]
            constructor
            · intro l hl
              simp only [List.mem_append] at hl
              rcases hl with hl | hl
              · exact hline _ _ _ _ l hl
              · exact hline _ _ _ _ l hl
            · intro _
              rw [if_pos ⟨h2, hp2, hr⟩]
              rw [log_audit_lines_no_siem env hs, log_audit_lines_no_siem env hs]
              rfl
        · rw [hup_low env kvs hp2 hr]
          constructor
          · exact fun l hl => hline _ _ _ _ l hl
          · intro _
            rw [if_neg (by intro hc; exact hr hc.2.2), log_audit_lines_no_siem env hs]
            rfl
    · by_cases h3 : event = evPreToolUse
      · have hm : mainRun cfg env event (.payload (.obj kvs)) = handle_pre_tool_use env kvs := by
          subst h3; rfl
        rw [hm]
        unfold handle_pre_tool_use
        by_cases hc : jsonEqStr (dictGet kvs ("tool_name".toList) .null) ("Bash".toList) &&
            containsSeq (pyStr (dictGet kvs ("tool_input".toList) .null)) ("rm -rf /".toList)
        · rw [if_pos hc]
          refine ⟨fun l hl => hline _ _ _ _ l hl, fun _ => ?_⟩
          rw [if_neg (by rw [h3]; intro hcc; exact absurd hcc.1 (by decide)),
            log_audit_lines_no_siem env hs]
          rfl
        · rw [if_neg hc]
          refine ⟨fun l hl => hline _ _ _ _ l hl, fun _ => ?_⟩
          rw [if_neg (by rw [h3]; intro hcc; exact absurd hcc.1 (by decide)),
            log_audit_lines_no_siem env hs]
          rfl
      · by_cases h4 : event = evPostToolUse
        · have hm : mainRun cfg env event (.payload (.obj kvs)) = handle_post_tool_use env kvs := by
            subst h4; rfl
          rw [hm]
          unfold handle_post_tool_use
          refine ⟨fun l hl => hline _ _ _ _ l hl, fun _ => ?_⟩
          rw [if_neg (by rw [h4]; intro hcc; exact absurd hcc.1 (by decide)),
            log_audit_lines_no_siem env hs]
          rfl
        · have hm : mainRun cfg env event (.payload (.obj kvs)) = (0, []) := by
            have hstep : mainRun cfg env event (.payload (.obj kvs)) =
                (if event == evSessionStart then withObjPayload (.obj kvs) (handle_session_start env)
                 else if event == evUserPromptSubmit then withObjPayload (.obj kvs) (handle_user_prompt env)
                 else if event == evPreToolUse then withObjPayload (.obj kvs) (handle_pre_tool_use env)
                 else if event == evPostToolUse then withObjPayload (.obj kvs) (handle_post_tool_use env)
                 else (0, [])) := rfl
            rw [hstep, if_neg (by simpa using h1), if_neg (by simpa using h2),
              if_neg (by simpa using h3), if_neg (by simpa using h4)]
          rw [hm]
          refine ⟨by intro l hl; exact absurd hl (by simp), fun hrec => ?_⟩
          exact absurd hrec (by simp [recognizedEvent, h1, h2, h3, h4])

theorem claim_C6_amended_witness :
    envBase.siem_url = none ∧
    (∀ l ∈ (mainRun cfgBase envBase evSessionStart (.payload (.obj []))).2,
      ∃ e, l = .info e ∧ e.timestamp = envBase.now ∧ e.model_version = modelTag envBase) ∧
    ((mainRun cfgBase envBase evSessionStart (.payload (.obj []))).2).length =
      (if (evSessionStart : List Char) = evUserPromptSubmit ∧
          (check_pii (promptOf [])).1 = false ∧ classify_risk (promptOf []) = .HIGH
       then 2 else 1) :=
  ⟨rfl, (claim_C6_amended cfgBase envBase rfl evSessionStart []).1,
   (claim_C6_amended cfgBase envBase rfl evSessionStart []).2 rfl⟩

/-! ## Claim C7 -/

def cfgBanana : PolicyConfig :=
  { piiPatterns := [], highRiskKeywords := ["banana".toList], hitlMode := .INTERACTIVE,
    auditEndpoint := none, auditToken := none }

def kvsBanana : List (List Char × Json) := [("prompt".toList, .str ("banana".toList))]

/-- Counterexample to C7 as stated: a configuration overriding the high-risk
keywords with `banana` classifies the prompt `banana` HIGH per the
specification, but the process ignores every configuration value: risk stays
LOW and the prompt is allowed (exit 0) where the configured behaviour would
block (no terminal available). -/
theorem claim_C7_counterexample :
    specClassifyRisk cfgBanana ("banana".toList) = .HIGH ∧
    classify_risk (.str ("banana".toList)) = .LOW ∧
    (mainRun cfgBanana envBase evUserPromptSubmit (.payload (.obj kvsBanana))).1 = 0 ∧
    mainRun cfgBanana envBase evUserPromptSubmit (.payload (.obj kvsBanana)) =
      mainRun cfgBase envBase evUserPromptSubmit (.payload (.obj kvsBanana)) :=
  ⟨rfl, rfl, rfl, rfl⟩

/-- C7 amended: the hook reads no configuration file at all — every run is
identical for every pair of configuration values (PII patterns, keywords,
HITL mode, collector endpoint and token included), i.e. the built-in defaults
are always in force and startup never aborts on account of configuration. -/
theorem claim_C7_amended :
    ∀ (cfg cfg2 : PolicyConfig) (env : Env) (event : List Char) (input : Stdin),
      mainRun cfg env event input = mainRun cfg2 env event input :=
  fun _ _ _ _ _ => rfl

/-! ## Claim C8 -/

theorem log_audit_entry_siem_indep (env : Env) (b : Bool) (et : List Char) (d : Json)
    (r : RiskL) (dec : Decision) :
    (log_audit { env with siem_ok := b } et d r dec).1 = (log_audit env et d r dec).1 :=
  rfl

theorem entriesOf_log_audit_siem_indep (env : Env) (b : Bool) (et : List Char) (d : Json)
    (r : RiskL) (dec : Decision) :
    entriesOf (log_audit { env with siem_ok := b } et d r dec).2 =
      entriesOf (log_audit env et d r dec).2 := by
  rw [entriesOf_log_audit, entriesOf_log_audit]
  rfl

/-- C8: for identical inputs, the exit code and the recorded audit entries do
not depend on whether the remote collector is reachable; unreachability can
only add local secondary ERROR lines. -/
theorem claim_C8 :
    ∀ (cfg : PolicyConfig) (env : Env) (event : List Char) (input : Stdin) (b1 b2 : Bool),
      (mainRun cfg { env with siem_ok := b1 } event input).1 =
        (mainRun cfg { env with siem_ok := b2 } event input).1 ∧
      entriesOf (mainRun cfg { env with siem_ok := b1 } event input).2 =
        entriesOf (mainRun cfg { env with siem_ok := b2 } event input).2 := by
  intro cfg env event input b1 b2
  have key : ∀ b : Bool,
      (mainRun cfg { env with siem_ok := b } event input).1 =
        (mainRun cfg env event input).1 ∧
      entriesOf (mainRun cfg { env with siem_ok := b } event input).2 =
        entriesOf (mainRun cfg env event input).2 := by
    intro b
    cases input with
    | emptyIn => exact ⟨rfl, rfl⟩
    | badJson => exact ⟨rfl, rfl⟩
    | payload j =>
      cases j with
      | obj kvs =>
        by_cases h1 : event = evSessionStart
        · have hm : ∀ env2 : Env, mainRun cfg env2 event (.payload (.obj kvs)) =
              handle_session_start env2 kvs := by
            intro env2; subst h1; rfl
          rw [hm, hm]
          unfold handle_session_start
          exact ⟨rfl, by rw [entriesOf_log_audit, entriesOf_log_audit]; rfl⟩
        · by_cases h2 : event = evUserPromptSubmit
          · have hm : ∀ env2 : Env, mainRun cfg env2 event (.payload (.obj kvs)) =
                handle_user_prompt env2 kvs := by
              intro env2; subst h2; rfl
            rw [hm, hm]
            have hga : request_user_approval { env with siem_ok := b } =
                request_user_approval env := rfl
            by_cases hp : (check_pii (promptOf kvs)).1
            · rw [hup_pii _ kvs hp, hup_pii _ kvs hp]
              exact ⟨rfl, by rw [entriesOf_log_audit, entriesOf_log_audit]; rfl⟩
            · have hp2 : (check_pii (promptOf kvs)).1 = false := by simpa using hp
              by_cases hr : classify_risk (promptOf kvs) = .HIGH
              · by_cases ha : request_user_approval env
                · rw [hup_high_approved _ kvs hp2 hr (by rw [hga]; exact ha),
                    hup_high_approved _ kvs hp2 hr ha]
                  refine ⟨rfl, ?_⟩
                  rw [entriesOf_append, entriesOf_append, entriesOf_log_audit,
                    entriesOf_log_audit, entriesOf_log_audit, entriesOf_log_audit]
                  rfl
                · have ha2 : request_user_approval env = false := by simpa using ha
                  rw [hup_high_denied _ kvs hp2 hr (by rw [hga]; exact ha2),
                    hup_high_denied _ kvs hp2 hr ha2]
                  refine ⟨rfl, ?_⟩
                  rw [entriesOf_append, entriesOf_append, entriesOf_log_audit,
                    entriesOf_log_audit, entriesOf_log_audit, entriesOf_log_audit]
                  rfl
              · rw [hup_low _ kvs hp2 hr, hup_low _ kvs hp2 hr]
                exact ⟨rfl, by rw [entriesOf_log_audit, entriesOf_log_audit]; rfl⟩
          · by_cases h3 : event = evPreToolUse
            · have hm : ∀ env2 : Env, mainRun cfg env2 event (.payload (.obj kvs)) =
                  handle_pre_tool_use env2 kvs := by
                intro env2; subst h3; rfl
              rw [hm, hm]
              unfold handle_pre_tool_use
              by_cases hc : jsonEqStr (dictGet kvs ("tool_name".toList) .null) ("Bash".toList) &&
                  containsSeq (pyStr (dictGet kvs ("tool_input".toList) .null)) ("rm -rf /".toList)
              · rw [if_pos hc, if_pos hc]
                exact ⟨rfl, by rw [entriesOf_log_audit, entriesOf_log_audit]; rfl⟩
              · rw [if_neg hc, if_neg hc]
                exact ⟨rfl, by rw [entriesOf_log_audit, entriesOf_log_audit]; rfl⟩
            · by_cases h4 : event = evPostToolUse
              · have hm : ∀ env2 : Env, mainRun cfg env2 event (.payload (.obj kvs)) =
                    handle_post_tool_use env2 kvs := by
                  intro env2; subst h4; rfl
                rw [hm, hm]
                unfold handle_post_tool_use
                exact ⟨rfl, by rw [entriesOf_log_audit, entriesOf_log_audit]; rfl⟩
              · have hm : ∀ env2 : Env, mainRun cfg env2 event (.payload (.obj kvs)) =
                    (0, []) := by
                  intro env2
                  have hstep : mainRun cfg env2 event (.payload (.obj kvs)) =
                      (if event == evSessionStart then withObjPayload (.obj kvs) (handle_session_start env2)
                       else if event == evUserPromptSubmit then withObjPayload (.obj kvs) (handle_user_prompt env2)
                       else if event == evPreToolUse then withObjPayload (.obj kvs) (handle_pre_tool_use env2)
                       else if event == evPostToolUse then withObjPayload (.obj kvs) (handle_post_tool_use env2)
                       else (0, [])) := rfl
                  rw [hstep, if_neg (by simpa using h1), if_neg (by simpa using h2),
                    if_neg (by simpa using h3), if_neg (by simpa using h4)]
                rw [hm, hm]
                exact ⟨rfl, rfl⟩
      | null =>
        rw [mainRun_nonobj_eq cfg _ event .null (by intro kvs h; exact Json.noConfusion h),
          mainRun_nonobj_eq cfg env event .null (by intro kvs h; exact Json.noConfusion h)]
        exact ⟨rfl, rfl⟩
      | bool bb =>
        rw [mainRun_nonobj_eq cfg _ event (.bool bb) (by intro kvs h; exact Json.noConfusion h),
          mainRun_nonobj_eq cfg env event (.bool bb) (by intro kvs h; exact Json.noConfusion h)]
        exact ⟨rfl, rfl⟩
      | num n =>
        rw [mainRun_nonobj_eq cfg _ event (.num n) (by intro kvs h; exact Json.noConfusion h),
          mainRun_nonobj_eq cfg env event (.num n) (by intro kvs h; exact Json.noConfusion h)]
        exact ⟨rfl, rfl⟩
      | str s =>
        rw [mainRun_nonobj_eq cfg _ event (.str s) (by intro kvs h; exact Json.noConfusion h),
          mainRun_nonobj_eq cfg env event (.str s) (by intro kvs h; exact Json.noConfusion h)]
        exact ⟨rfl, rfl⟩
      | arr xs =>
        rw [mainRun_nonobj_eq cfg _ event (.arr xs) (by intro kvs h; exact Json.noConfusion h),
          mainRun_nonobj_eq cfg env event (.arr xs) (by intro kvs h; exact Json.noConfusion h)]
        exact ⟨rfl, rfl⟩
  exact ⟨(key b1).1.trans (key b2).1.symm, (key b1).2.trans (key b2).2.symm⟩


/-! ## Toolbox for the redaction theorems -/

theorem takeWhile_append2 (p : Char → Bool) (a b : List Char) :
    (a ++ b).takeWhile p =
      a.takeWhile p ++ (if a.all p then b.takeWhile p else []) := by
  induction a with
  | nil => simp
  | cons c a ih =>
    by_cases hc : p c
    · simp [List.takeWhile_cons, hc, List.all_cons, ih]
    · simp [List.takeWhile_cons, hc, List.all_cons]

theorem dropWhile_append2 (p : Char → Bool) (a b : List Char) :
    (a ++ b).dropWhile p =
      if a.all p then b.dropWhile p else a.dropWhile p ++ b := by
  induction a with
  | nil => simp
  | cons c a ih =>
    by_cases hc : p c
    · simp only [List.cons_append, List.dropWhile_cons, hc, List.all_cons, Bool.true_and,
        ite_true, ih]
    · simp [List.dropWhile_cons, hc, List.all_cons]

theorem takeWhile_length_mono (p : Char → Bool) (a b : List Char) :
    (a.takeWhile p).length ≤ ((a ++ b).takeWhile p).length := by
  rw [takeWhile_append2]
  simp

theorem takeWhile_all (p : Char → Bool) (l : List Char) :
    ∀ c ∈ l.takeWhile p, p c = true := by
  intro c hc
  exact List.mem_takeWhile_imp hc

/-- Fuel irrelevance for the credit-card walk. -/
theorem ccWalkF_congr :
    ∀ (f1 f2 i pos : Nat) (s : List Char), s.length ≤ f1 → s.length ≤ f2 →
      ccWalkF f1 i pos s = ccWalkF f2 i pos s := by
  intro f1
  induction f1 with
  | zero =>
    intro f2 i pos s h1 h2
    have hs : s = [] := List.length_eq_zero.mp (Nat.le_zero.mp h1)
    subst hs
    cases f2 <;> rfl
  | succ f1 ih =>
    intro f2 i pos s h1 h2
    cases s with
    | nil => cases f2 <;> rfl
    | cons c t =>
      cases f2 with
      | zero => exact absurd h2 (by simp)
      | succ f2 =>
        show ccWalkF (f1 + 1) i pos (c :: t) = ccWalkF (f2 + 1) i pos (c :: t)
        rw [ccWalkF, ccWalkF]
        by_cases h16 : i = 16
        · rw [if_pos h16, if_pos h16]
        · rw [if_neg h16, if_neg h16]
          by_cases hd : isDigitC c
          · rw [if_pos hd, if_pos hd]
            exact ih f2 (i+1) (pos+1) t (by simpa using h1) (by simpa using h2)
          · rw [if_neg hd, if_neg hd]
            by_cases h13 : 13 ≤ i
            · rw [if_pos h13, if_pos h13]
            · rw [if_neg h13, if_neg h13]
              by_cases hsep : isSepC c
              · rw [if_pos hsep, if_pos hsep]
                have hle : (t.dropWhile isSepC).length ≤ t.length :=
                  List.Sublist.length_le (List.dropWhile_sublist isSepC)
                cases hdw : t.dropWhile isSepC with
                | nil => rfl
                | cons d t2 =>
                  simp only
                  by_cases hdd : isDigitC d
                  · rw [if_pos hdd, if_pos hdd]
                    rw [hdw] at hle
                    simp at hle h1 h2
                    exact ih f2 (i+1) _ t2 (by omega) (by omega)
                  · rw [if_neg hdd, if_neg hdd]
              · rw [if_neg hsep, if_neg hsep]

theorem ccWalk_nil (i pos : Nat) :
    ccWalk i pos [] = (if 13 ≤ i then some pos else none) := rfl

/-- One-step unfolding of `ccWalk` with `ccWalk` in the recursive positions. -/
theorem ccWalk_cons (i pos : Nat) (c : Char) (t : List Char) :
    ccWalk i pos (c :: t) =
      (if i = 16 then (if isWordC c then none else some pos)
       else if isDigitC c then ccWalk (i + 1) (pos + 1) t
       else if 13 ≤ i then (if isWordC c then none else some pos)
       else if isSepC c then
         match t.dropWhile isSepC with
         | d :: t2 =>
           if isDigitC d then
             ccWalk (i + 1) (pos + 1 + (t.takeWhile isSepC).length + 1) t2
           else none
         | [] => none
       else none) := by
  show ccWalkF (t.length + 1) i pos (c :: t) = _
  rw [ccWalkF]
  by_cases h16 : i = 16
  · rw [if_pos h16, if_pos h16]
  · rw [if_neg h16, if_neg h16]
    by_cases hd : isDigitC c
    · rw [if_pos hd, if_pos hd]
      exact ccWalkF_congr _ _ _ _ t (Nat.le_refl _) (Nat.le_refl _)
    · rw [if_neg hd, if_neg hd]
      by_cases h13 : 13 ≤ i
      · rw [if_pos h13, if_pos h13]
      · rw [if_neg h13, if_neg h13]
        by_cases hsep : isSepC c
        · rw [if_pos hsep, if_pos hsep]
          have hle : (t.dropWhile isSepC).length ≤ t.length :=
            List.Sublist.length_le (List.dropWhile_sublist isSepC)
          cases hdw : t.dropWhile isSepC with
          | nil => rfl
          | cons d t2 =>
            simp only
            by_cases hdd : isDigitC d
            · rw [if_pos hdd, if_pos hdd]
              rw [hdw] at hle
              simp at hle
              exact ccWalkF_congr _ _ _ _ t2 (by omega) (Nat.le_refl _)
            · rw [if_neg hdd, if_neg hdd]
        · rw [if_neg hsep, if_neg hsep]

/-- Fuel irrelevance for the substitution driver. -/
theorem scanSubF_congr (M : Option Char → List Char → Option Nat) (tok : List Char) :
    ∀ (f1 f2 : Nat) (prev : Option Char) (s : List Char), s.length ≤ f1 → s.length ≤ f2 →
      scanSubF M tok f1 prev s = scanSubF M tok f2 prev s := by
  intro f1
  induction f1 with
  | zero =>
    intro f2 prev s h1 h2
    have : s = [] := List.length_eq_zero.mp (Nat.le_zero.mp h1)
    subst this
    cases f2 <;> rfl
  | succ f1 ih =>
    intro f2 prev s h1 h2
    cases s with
    | nil => cases f2 <;> rfl
    | cons c t =>
      cases f2 with
      | zero => exact absurd h2 (by simp)
      | succ f2 =>
        rw [scanSubF, scanSubF]
        cases hM : M prev (c :: t) with
        | none =>
          simp only
          rw [ih f2 (some c) t (by simpa using h1) (by simpa using h2)]
        | some n =>
          cases n with
          | zero =>
            simp only
            rw [ih f2 (some c) t (by simpa using h1) (by simpa using h2)]
          | succ n =>
            simp only
            rw [ih f2 _ (t.drop n) (by simp at h1 ⊢; omega) (by simp at h2 ⊢; omega)]

theorem scanSub_nil (M : Option Char → List Char → Option Nat) (tok : List Char)
    (prev : Option Char) : scanSub M tok prev [] = [] := rfl

/-- One-step unfolding of `scanSub`. -/
theorem scanSub_cons (M : Option Char → List Char → Option Nat) (tok : List Char)
    (prev : Option Char) (c : Char) (t : List Char) :
    scanSub M tok prev (c :: t) =
      match M prev (c :: t) with
      | some (n + 1) =>
        tok ++ scanSub M tok (((c :: t).take (n + 1)).getLast?) (t.drop n)
      | _ => c :: scanSub M tok (some c) t := by
  unfold scanSub
  rw [show (c :: t).length = t.length + 1 from rfl, scanSubF]
  cases hM : M prev (c :: t) with
  | none => rfl
  | some n =>
    cases n with
    | zero => rfl
    | succ n =>
      have hc : scanSubF M tok t.length (((c :: t).take (n + 1)).getLast?) (t.drop n) =
          scanSub M tok (((c :: t).take (n + 1)).getLast?) (t.drop n) := by
        unfold scanSub
        exact scanSubF_congr M tok _ _ _ _ (by simp) (Nat.le_refl _)
      show tok ++ scanSubF M tok t.length (((c :: t).take (n + 1)).getLast?) (t.drop n) =
        tok ++ scanSub M tok (((c :: t).take (n + 1)).getLast?) (t.drop n)
      rw [hc]


/-! ## Driver lemmas: `searchM` and scan decompositions -/

theorem searchM_nil (M : Option Char → List Char → Option Nat) (prev : Option Char) :
    searchM M prev [] = false := rfl

theorem searchM_cons (M : Option Char → List Char → Option Nat) (prev : Option Char)
    (c : Char) (t : List Char) :
    searchM M prev (c :: t) = ((M prev (c :: t)).isSome || searchM M (some c) t) := rfl

theorem searchM_false_head {M : Option Char → List Char → Option Nat} {prev : Option Char}
    {c : Char} {t : List Char} (h : searchM M prev (c :: t) = false) :
    M prev (c :: t) = none ∧ searchM M (some c) t = false := by
  rw [searchM_cons] at h
  rcases Bool.or_eq_false_iff.mp h with ⟨h1, h2⟩
  exact ⟨Option.not_isSome_iff_eq_none.mp (by simp [h1]), h2⟩

theorem searchM_switch (M : Option Char → List Char → Option Nat) (p q : Option Char)
    (w : List Char) (h : searchM M p w = false)
    (hq : ∀ c t, w = c :: t → M q (c :: t) = none) : searchM M q w = false := by
  cases w with
  | nil => rfl
  | cons c t =>
    rw [searchM_cons, hq c t rfl]
    simpa using (searchM_false_head h).2

theorem searchM_token (M : Option Char → List Char → Option Nat) (w : List Char) :
    ∀ (tok : List Char) (prev : Option Char),
    (∀ i pr, i < tok.length → M pr (tok.drop i ++ w) = none) →
    (tok = [] → searchM M prev w = false) →
    (∀ c, tok.getLast? = some c → searchM M (some c) w = false) →
    searchM M prev (tok ++ w) = false := by
  intro tok
  induction tok with
  | nil =>
    intro prev _ h0 _
    simpa using h0 rfl
  | cons c tok ih =>
    intro prev hrej h0 hlast
    rw [List.cons_append, searchM_cons]
    have h1 : M prev (c :: (tok ++ w)) = none := by
      have := hrej 0 prev (by simp)
      simpa using this
    rw [h1]
    simp only [Option.isSome_none, Bool.false_or]
    apply ih (some c)
    · intro i pr hi
      have := hrej (i + 1) pr (by simpa using hi)
      simpa using this
    · intro htok
      subst htok
      exact hlast c rfl
    · intro d hd
      apply hlast
      cases tok with
      | nil => exact absurd hd (by simp)
      | cons e tok2 => rw [List.getLast?_cons_cons]; exact hd

theorem searchM_suffix (M : Option Char → List Char → Option Nat) :
    ∀ (s : List Char) (prev : Option Char), searchM M prev s = false →
    ∀ k, 1 ≤ k → searchM M ((s.take k).getLast?) (s.drop k) = false := by
  intro s
  induction s with
  | nil =>
    intro prev _ k _
    simp [searchM_nil]
  | cons c t ih =>
    intro prev h k hk
    obtain ⟨h1, h2⟩ := searchM_false_head h
    match k, hk with
    | 1, _ => simpa using h2
    | (k + 2), _ =>
      have hrec := ih (some c) h2 (k + 1) (by omega)
      rw [show (c :: t).take (k + 2) = c :: t.take (k + 1) from rfl,
        show (c :: t).drop (k + 2) = t.drop (k + 1) from rfl]
      cases ht : t.take (k + 1) with
      | nil =>
        have hnil : t = [] := by
          cases t with
          | nil => rfl
          | cons x xs => simp at ht
        subst hnil
        simp [searchM_nil]
      | cons x xs =>
        rw [ht] at hrec
        rw [show (c :: x :: xs).getLast? = (x :: xs).getLast? from List.getLast?_cons_cons]
        exact hrec

/-- The previous character the scan sees at the start of the suffix `d :: rest`
after it has passed over the unmatched prefix `u` (with `p` the character
before `u`). -/
def lastP (p : Option Char) (u : List Char) : Option Char :=
  match u.getLast? with
  | some x => some x
  | none => p

theorem lastP_cons_eq (c : Char) (u : List Char) :
    lastP (some c) u = (c :: u).getLast? := by
  cases u with
  | nil => rfl
  | cons x u2 =>
    rw [List.getLast?_cons_cons]
    unfold lastP
    cases h : (x :: u2).getLast? with
    | none => exact absurd h (by simp)
    | some y => rfl

theorem lastP_cons (p : Option Char) (c : Char) (u : List Char) :
    lastP p (c :: u) = lastP (some c) u := by
  rw [lastP_cons_eq]
  unfold lastP
  cases h : (c :: u).getLast? with
  | none => exact absurd h (by simp)
  | some y => rfl

/-- Head shape of a scan output: empty, token-initial (a match at the head), or
the unchanged head character of an unmatched position. -/
theorem scan_head (M : Option Char → List Char → Option Nat) (tok : List Char)
    (hpos : ∀ pv s n, M pv s = some n → 1 ≤ n) (p : Option Char) (r : List Char) :
    scanSub M tok p r = [] ∨
    (∃ z, scanSub M tok p r = tok ++ z) ∨
    (∃ c2 out3, scanSub M tok p r = c2 :: out3 ∧ r.head? = some c2 ∧ M p r = none) := by
  cases r with
  | nil => left; rfl
  | cons c t =>
    rw [scanSub_cons]
    cases hM : M p (c :: t) with
    | none => right; right; exact ⟨c, _, rfl, rfl, rfl⟩
    | some n =>
      cases n with
      | zero => exact absurd (hpos p _ 0 hM) (by omega)
      | succ n => right; left; exact ⟨_, rfl⟩

/-- Global shape of a scan output: either nothing matched anywhere and the text
is returned unchanged, or the text splits as an unmatched prefix `u` followed
by a first match, and the output starts with `u` then the token. -/
theorem scan_decomp (M : Option Char → List Char → Option Nat) (tok : List Char)
    (hpos : ∀ pv s n, M pv s = some n → 1 ≤ n) :
    ∀ (r : List Char) (p : Option Char),
    scanSub M tok p r = r ∨
    ∃ u d rest n z, r = u ++ d :: rest ∧ M (lastP p u) (d :: rest) = some (n + 1) ∧
      scanSub M tok p r = u ++ (tok ++ z) := by
  intro r
  induction r with
  | nil => intro p; left; rfl
  | cons c t ih =>
    intro p
    rw [scanSub_cons]
    cases hM : M p (c :: t) with
    | some n =>
      cases n with
      | zero => exact absurd (hpos p _ 0 hM) (by omega)
      | succ n =>
        right
        exact ⟨[], c, t, n, _, rfl, by simpa [lastP] using hM, rfl⟩
    | none =>
      rcases ih (some c) with h | ⟨u, d, rest, n, z, ht, hm, hs⟩
      · left; rw [h]
      · right
        refine ⟨c :: u, d, rest, n, z, by rw [ht, List.cons_append], ?_, by rw [hs]; rfl⟩
        rw [lastP_cons]
        exact hm


/-! ## The generic no-match theorems -/

/-- Hypothesis bundle for the pass of matcher `Mj` with token `tokj`, relative
to the matcher `Mk` whose absence from the output is being established. -/
structure ScanHyps (Mk Mj : Option Char → List Char → Option Nat)
    (tokj : List Char) : Prop where
  mjpos : ∀ pv s n, Mj pv s = some n → 1 ≤ n
  tokHead : ∃ tokTail, tokj = '[' :: tokTail
  reject : ∀ i pr (w : List Char), i < tokj.length → Mk pr (tokj.drop i ++ w) = none
  flip : ∀ pv s n q (w : List Char), Mj pv s = some n →
    Mk ((s.take n).getLast?) w = none → w.head? = (s.drop n).head? → Mk q w = none
  trans : ∀ pr (u xs y : List Char) n m, Mk pr (u ++ '[' :: xs) = some n →
    Mj u.getLast? y = some m → ∃ n2, Mk pr (u ++ y) = some n2


/-- After its own pass, a matcher finds no further match anywhere in the
output. -/
theorem scan_clean (M : Option Char → List Char → Option Nat) (tok : List Char)
    (H : ScanHyps M M tok) :
    ∀ (s : List Char) (prev : Option Char),
      searchM M prev (scanSub M tok prev s) = false := by
  suffices main : ∀ (N : Nat) (s : List Char) (prev : Option Char), s.length ≤ N →
      searchM M prev (scanSub M tok prev s) = false by
    intro s prev
    exact main s.length s prev (Nat.le_refl _)
  intro N
  induction N with
  | zero =>
    intro s prev hlen
    have hs : s = [] := List.length_eq_zero.mp (Nat.le_zero.mp hlen)
    subst hs
    rfl
  | succ N ihN =>
    intro s prev hlen
    cases s with
    | nil => rfl
    | cons c t =>
      rw [scanSub_cons]
      cases hM : M prev (c :: t) with
      | none =>
        rw [searchM_cons]
        have htail : searchM M (some c) (scanSub M tok (some c) t) = false :=
          ihN t (some c) (by simpa using hlen)
        rw [htail]
        have hhead : M prev (c :: scanSub M tok (some c) t) = none := by
          rcases scan_decomp M tok H.mjpos t (some c) with hid | ⟨u, d, rest, n, z, ht, hm, hs⟩
          · rw [hid]; exact hM
          · rw [hs]
            cases hiso : M prev (c :: (u ++ (tok ++ z))) with
            | none => rfl
            | some n2 =>
              obtain ⟨tokTail, htok⟩ := H.tokHead
              have hshape : c :: (u ++ (tok ++ z)) = (c :: u) ++ '[' :: (tokTail ++ z) := by
                rw [htok]; simp
              rw [hshape] at hiso
              have hmj : M (c :: u).getLast? (d :: rest) = some (n + 1) := by
                rw [← lastP_cons_eq]; exact hm
              obtain ⟨n3, hn3⟩ := H.trans prev (c :: u) (tokTail ++ z) (d :: rest) n2 (n + 1) hiso hmj
              have hback : (c :: u) ++ d :: rest = c :: t := by rw [ht]; rfl
              rw [hback] at hn3
              rw [hn3] at hM
              exact absurd hM (by simp)
        rw [hhead]
        rfl
      | some n =>
        cases n with
        | zero => exact absurd (H.mjpos prev _ 0 hM) (by omega)
        | succ n =>
          obtain ⟨tokTail, htok⟩ := H.tokHead
          have htokne : tok ≠ [] := by rw [htok]; simp
          have hIH : searchM M (((c :: t).take (n + 1)).getLast?)
              (scanSub M tok (((c :: t).take (n + 1)).getLast?) (t.drop n)) = false :=
            ihN (t.drop n) _ (by simp at hlen ⊢; omega)
          apply searchM_token M _ tok prev
          · intro i pr hi
            exact H.reject i pr _ hi
          · intro h0
            exact absurd h0 htokne
          · intro cl hcl
            apply searchM_switch M (((c :: t).take (n + 1)).getLast?) (some cl) _ hIH
            intro c2 out3 hshape
            rcases scan_head M tok H.mjpos (((c :: t).take (n + 1)).getLast?) (t.drop n) with
              hsh | ⟨z, hsh⟩ | ⟨c2b, out3b, hsh, hhd, _⟩
            · rw [hsh] at hshape
              exact absurd hshape (by simp)
            · rw [hsh] at hshape
              rw [← hshape]
              have := H.reject 0 (some cl) z (by rw [htok]; simp)
              simpa using this
            · rw [hsh] at hshape hIH
              injection hshape with h1 h2
              rw [← h1, ← h2]
              refine H.flip prev (c :: t) (n + 1) (some cl) (c2b :: out3b) hM ?_ ?_
              · exact (searchM_false_head hIH).1
              · show (c2b :: out3b).head? = ((c :: t).drop (n + 1)).head?
                rw [show ((c :: t).drop (n + 1)) = t.drop n from rfl, hhd]
                rfl

/-- A pass of `Mj` cannot introduce a match of `Mk` into a text that had
none. -/
theorem scan_preserve (Mk Mj : Option Char → List Char → Option Nat) (tokj : List Char)
    (H : ScanHyps Mk Mj tokj) :
    ∀ (s : List Char) (prev : Option Char), searchM Mk prev s = false →
      searchM Mk prev (scanSub Mj tokj prev s) = false := by
  suffices main : ∀ (N : Nat) (s : List Char) (prev : Option Char), s.length ≤ N →
      searchM Mk prev s = false →
      searchM Mk prev (scanSub Mj tokj prev s) = false by
    intro s prev
    exact main s.length s prev (Nat.le_refl _)
  intro N
  induction N with
  | zero =>
    intro s prev hlen _
    have hs : s = [] := List.length_eq_zero.mp (Nat.le_zero.mp hlen)
    subst hs
    rfl
  | succ N ihN =>
    intro s prev hlen hin
    cases s with
    | nil => rfl
    | cons c t =>
      obtain ⟨hinh, hint⟩ := searchM_false_head hin
      rw [scanSub_cons]
      cases hM : Mj prev (c :: t) with
      | none =>
        rw [searchM_cons]
        have htail : searchM Mk (some c) (scanSub Mj tokj (some c) t) = false :=
          ihN t (some c) (by simpa using hlen) hint
        rw [htail]
        have hhead : Mk prev (c :: scanSub Mj tokj (some c) t) = none := by
          rcases scan_decomp Mj tokj H.mjpos t (some c) with hid | ⟨u, d, rest, n, z, ht, hm, hs⟩
          · rw [hid]; exact hinh
          · rw [hs]
            cases hiso : Mk prev (c :: (u ++ (tokj ++ z))) with
            | none => rfl
            | some n2 =>
              obtain ⟨tokTail, htok⟩ := H.tokHead
              have hshape : c :: (u ++ (tokj ++ z)) = (c :: u) ++ '[' :: (tokTail ++ z) := by
                rw [htok]; simp
              rw [hshape] at hiso
              have hmj : Mj (c :: u).getLast? (d :: rest) = some (n + 1) := by
                rw [← lastP_cons_eq]; exact hm
              obtain ⟨n3, hn3⟩ :=
                H.trans prev (c :: u) (tokTail ++ z) (d :: rest) n2 (n + 1) hiso hmj
              have hback : (c :: u) ++ d :: rest = c :: t := by rw [ht]; rfl
              rw [hback] at hn3
              rw [hn3] at hinh
              exact absurd hinh (by simp)
        rw [hhead]
        rfl
      | some n =>
        cases n with
        | zero => exact absurd (H.mjpos prev _ 0 hM) (by omega)
        | succ n =>
          obtain ⟨tokTail, htok⟩ := H.tokHead
          have htokne : tokj ≠ [] := by rw [htok]; simp
          have hr2 : searchM Mk (((c :: t).take (n + 1)).getLast?) (t.drop n) = false := by
            have := searchM_suffix Mk (c :: t) prev hin (n + 1) (by omega)
            simpa using this
          have hIH : searchM Mk (((c :: t).take (n + 1)).getLast?)
              (scanSub Mj tokj (((c :: t).take (n + 1)).getLast?) (t.drop n)) = false :=
            ihN (t.drop n) _ (by simp at hlen ⊢; omega) hr2
          apply searchM_token Mk _ tokj prev
          · intro i pr hi
            exact H.reject i pr _ hi
          · intro h0
            exact absurd h0 htokne
          · intro cl hcl
            apply searchM_switch Mk (((c :: t).take (n + 1)).getLast?) (some cl) _ hIH
            intro c2 out3 hshape
            rcases scan_head Mj tokj H.mjpos (((c :: t).take (n + 1)).getLast?) (t.drop n) with
              hsh | ⟨z, hsh⟩ | ⟨c2b, out3b, hsh, hhd, _⟩
            · rw [hsh] at hshape
              exact absurd hshape (by simp)
            · rw [hsh] at hshape
              rw [← hshape]
              have := H.reject 0 (some cl) z (by rw [htok]; simp)
              simpa using this
            · rw [hsh] at hshape hIH
              injection hshape with h1 h2
              rw [← h1, ← h2]
              refine H.flip prev (c :: t) (n + 1) (some cl) (c2b :: out3b) hM ?_ ?_
              · exact (searchM_false_head hIH).1
              · show (c2b :: out3b).head? = ((c :: t).drop (n + 1)).head?
                rw [show ((c :: t).drop (n + 1)) = t.drop n from rfl, hhd]
                rfl

/-! ## Per-matcher facts: `matchSSN` and `matchEMP` -/

theorem word_of_digit {c : Char} (h : isDigitC c = true) : isWordC c = true := by
  simp [isWordC, h]

theorem matchSSN_some {pr : Option Char} {s : List Char} {n : Nat}
    (h : matchSSN pr s = some n) :
    n = 11 ∧ wordB pr s[0]? = true ∧ s[0]?.any isDigitC = true ∧ s[1]?.any isDigitC = true ∧
    s[2]?.any isDigitC = true ∧ s[3]? = some '-' ∧ s[4]?.any isDigitC = true ∧
    s[5]?.any isDigitC = true ∧ s[6]? = some '-' ∧ s[7]?.any isDigitC = true ∧
    s[8]?.any isDigitC = true ∧ s[9]?.any isDigitC = true ∧ s[10]?.any isDigitC = true ∧
    wordB s[10]? s[11]? = true := by
  unfold matchSSN at h
  split at h
  case isTrue hG =>
    injection h with h11
    simp only [Bool.and_eq_true, beq_iff_eq, and_assoc] at hG
    exact ⟨h11.symm, hG.1, hG.2.1, hG.2.2.1, hG.2.2.2.1, hG.2.2.2.2.1, hG.2.2.2.2.2.1,
      hG.2.2.2.2.2.2.1, hG.2.2.2.2.2.2.2.1, hG.2.2.2.2.2.2.2.2.1, hG.2.2.2.2.2.2.2.2.2.1,
      hG.2.2.2.2.2.2.2.2.2.2.1, hG.2.2.2.2.2.2.2.2.2.2.2.1, hG.2.2.2.2.2.2.2.2.2.2.2.2⟩
  case isFalse => exact absurd h (by simp)

theorem matchSSN_intro {pr : Option Char} {s : List Char}
    (h1 : wordB pr s[0]? = true) (h2 : s[0]?.any isDigitC = true)
    (h3 : s[1]?.any isDigitC = true) (h4 : s[2]?.any isDigitC = true)
    (h5 : s[3]? = some '-') (h6 : s[4]?.any isDigitC = true)
    (h7 : s[5]?.any isDigitC = true) (h8 : s[6]? = some '-')
    (h9 : s[7]?.any isDigitC = true) (h10 : s[8]?.any isDigitC = true)
    (h11 : s[9]?.any isDigitC = true) (h12 : s[10]?.any isDigitC = true)
    (h13 : wordB s[10]? s[11]? = true) : matchSSN pr s = some 11 := by
  unfold matchSSN
  rw [if_pos]
  simp only [Bool.and_eq_true, beq_iff_eq, and_assoc]
  exact ⟨h1, h2, h3, h4, h5, h6, h7, h8, h9, h10, h11, h12, h13⟩

theorem ssn_pos (pv : Option Char) (s : List Char) (n : Nat)
    (h : matchSSN pv s = some n) : 1 ≤ n := by
  rw [(matchSSN_some h).1]; omega

theorem ssn_word_head (pr : Option Char) (s : List Char)
    (h : isWordO s.head? = false) : matchSSN pr s = none := by
  cases hM : matchSSN pr s with
  | none => rfl
  | some n =>
    obtain ⟨-, -, hd, -⟩ := matchSSN_some hM
    cases s with
    | nil => simp at hd
    | cons c t =>
      simp only [List.head?, isWordO] at h
      simp only [List.getElem?_cons_zero, Option.any_some] at hd
      exact absurd (word_of_digit hd) (by simp [h])

theorem ssn_lead (pv : Option Char) (s : List Char) (n : Nat)
    (h : matchSSN pv s = some n) : isWordO pv = false := by
  obtain ⟨-, hw, hd, -⟩ := matchSSN_some h
  cases hs0 : s[0]? with
  | none => rw [hs0] at hd; simp at hd
  | some c =>
    rw [hs0] at hw hd
    simp only [Option.any_some] at hd
    have hcw : isWordO (some c) = true := word_of_digit hd
    simp only [wordB, hcw] at hw
    simpa using hw

theorem ssn_trail (pv : Option Char) (s : List Char) (n : Nat)
    (h : matchSSN pv s = some n) : isWordO ((s.drop n).head?) = false := by
  obtain ⟨h11, hrest⟩ := matchSSN_some h
  subst h11
  have hd := hrest.2.2.2.2.2.2.2.2.2.2.2.1
  have hw := hrest.2.2.2.2.2.2.2.2.2.2.2.2
  rw [List.head?_drop]
  cases hs10 : s[10]? with
  | none => rw [hs10] at hd; simp at hd
  | some c =>
    rw [hs10] at hw hd
    simp only [Option.any_some] at hd
    have hcw : isWordO (some c) = true := word_of_digit hd
    simp only [wordB, hcw] at hw
    simpa using hw

theorem matchEMP_some {pr : Option Char} {s : List Char} {n : Nat}
    (h : matchEMP pr s = some n) :
    n = 9 ∧ wordB pr s[0]? = true ∧ s[0]? = some 'E' ∧ s[1]? = some 'M' ∧
    s[2]? = some 'P' ∧ s[3]? = some '-' ∧ s[4]?.any isDigitC = true ∧
    s[5]?.any isDigitC = true ∧ s[6]?.any isDigitC = true ∧ s[7]?.any isDigitC = true ∧
    s[8]?.any isDigitC = true ∧ wordB s[8]? s[9]? = true := by
  unfold matchEMP at h
  split at h
  case isTrue hG =>
    injection h with h9
    simp only [Bool.and_eq_true, beq_iff_eq, and_assoc] at hG
    exact ⟨h9.symm, hG.1, hG.2.1, hG.2.2.1, hG.2.2.2.1, hG.2.2.2.2.1, hG.2.2.2.2.2.1,
      hG.2.2.2.2.2.2.1, hG.2.2.2.2.2.2.2.1, hG.2.2.2.2.2.2.2.2.1, hG.2.2.2.2.2.2.2.2.2.1,
      hG.2.2.2.2.2.2.2.2.2.2⟩
  case isFalse => exact absurd h (by simp)

theorem matchEMP_intro {pr : Option Char} {s : List Char}
    (h1 : wordB pr s[0]? = true) (h2 : s[0]? = some 'E') (h3 : s[1]? = some 'M')
    (h4 : s[2]? = some 'P') (h5 : s[3]? = some '-') (h6 : s[4]?.any isDigitC = true)
    (h7 : s[5]?.any isDigitC = true) (h8 : s[6]?.any isDigitC = true)
    (h9 : s[7]?.any isDigitC = true) (h10 : s[8]?.any isDigitC = true)
    (h11 : wordB s[8]? s[9]? = true) : matchEMP pr s = some 9 := by
  unfold matchEMP
  rw [if_pos]
  simp only [Bool.and_eq_true, beq_iff_eq, and_assoc]
  exact ⟨h1, h2, h3, h4, h5, h6, h7, h8, h9, h10, h11⟩

theorem emp_pos (pv : Option Char) (s : List Char) (n : Nat)
    (h : matchEMP pv s = some n) : 1 ≤ n := by
  rw [(matchEMP_some h).1]; omega

theorem emp_word_head (pr : Option Char) (s : List Char)
    (h : isWordO s.head? = false) : matchEMP pr s = none := by
  cases hM : matchEMP pr s with
  | none => rfl
  | some n =>
    obtain ⟨-, -, hE, -⟩ := matchEMP_some hM
    cases s with
    | nil => simp at hE
    | cons c t =>
      simp only [List.head?, isWordO] at h
      simp only [List.getElem?_cons_zero, Option.some.injEq] at hE
      subst hE
      exact absurd h (by decide)

theorem emp_lead (pv : Option Char) (s : List Char) (n : Nat)
    (h : matchEMP pv s = some n) : isWordO pv = false := by
  obtain ⟨-, hw, hE, -⟩ := matchEMP_some h
  rw [hE] at hw
  simp only [wordB, show isWordO (some 'E') = true from by decide] at hw
  simpa using hw

theorem emp_trail (pv : Option Char) (s : List Char) (n : Nat)
    (h : matchEMP pv s = some n) : isWordO ((s.drop n).head?) = false := by
  obtain ⟨h9, hrest⟩ := matchEMP_some h
  subst h9
  have hd := hrest.2.2.2.2.2.2.2.2.2.1
  have hw := hrest.2.2.2.2.2.2.2.2.2.2
  rw [List.head?_drop]
  cases hs8 : s[8]? with
  | none => rw [hs8] at hd; simp at hd
  | some c =>
    rw [hs8] at hw hd
    simp only [Option.any_some] at hd
    have hcw : isWordO (some c) = true := word_of_digit hd
    simp only [wordB, hcw] at hw
    simpa using hw

theorem getElem?_append_lt {l1 l2 : List Char} {i : Nat} (h : i < l1.length) :
    (l1 ++ l2)[i]? = l1[i]? := by
  rw [List.getElem?_append]
  exact if_pos h

theorem bracket_at {u xs : List Char} : (u ++ '[' :: xs)[u.length]? = some '[' := by
  rw [List.getElem?_append_right (Nat.le_refl _)]
  simp

theorem ssn_trans (pr : Option Char) (u xs y : List Char) (n : Nat)
    (h : matchSSN pr (u ++ '[' :: xs) = some n) (hu : isWordO u.getLast? = false) :
    matchSSN pr (u ++ y) = some 11 := by
  obtain ⟨h11, hw0, d0, d1, d2, e3, d4, d5, e6, d7, d8, d9, d10, hw11⟩ := matchSSN_some h
  have hbr : (u ++ '[' :: xs)[u.length]? = some '[' := bracket_at
  have hlen : 11 ≤ u.length := by
    by_contra hlt
    push_neg at hlt
    set k := u.length with hk
    have hklt : k ≤ 10 := by omega
    interval_cases k
    · rw [hbr] at d0; exact absurd d0 (by decide)
    · rw [hbr] at d1; exact absurd d1 (by decide)
    · rw [hbr] at d2; exact absurd d2 (by decide)
    · rw [hbr] at e3; exact absurd e3 (by decide)
    · rw [hbr] at d4; exact absurd d4 (by decide)
    · rw [hbr] at d5; exact absurd d5 (by decide)
    · rw [hbr] at e6; exact absurd e6 (by decide)
    · rw [hbr] at d7; exact absurd d7 (by decide)
    · rw [hbr] at d8; exact absurd d8 (by decide)
    · rw [hbr] at d9; exact absurd d9 (by decide)
    · rw [hbr] at d10; exact absurd d10 (by decide)
  rcases Nat.lt_or_ge u.length 12 with h12 | h12
  · exfalso
    have h11len : u.length = 11 := by omega
    have h10 : (u ++ '[' :: xs)[10]? = u[10]? := getElem?_append_lt (by omega)
    have hlast : u.getLast? = u[10]? := by
      rw [List.getLast?_eq_getElem?, h11len]
    rw [h10] at d10
    rw [hlast] at hu
    cases hu10 : u[10]? with
    | none => rw [hu10] at d10; simp at d10
    | some c =>
      rw [hu10] at d10 hu
      simp only [Option.any_some] at d10
      simp only [isWordO] at hu
      exact absurd (word_of_digit d10) (by simp [hu])
  · have hsame : ∀ i, i < 12 → (u ++ y)[i]? = (u ++ '[' :: xs)[i]? := by
      intro i hi
      rw [getElem?_append_lt (by omega), getElem?_append_lt (by omega)]
    exact matchSSN_intro
      (by rw [hsame 0 (by omega)]; exact hw0)
      (by rw [hsame 0 (by omega)]; exact d0)
      (by rw [hsame 1 (by omega)]; exact d1)
      (by rw [hsame 2 (by omega)]; exact d2)
      (by rw [hsame 3 (by omega)]; exact e3)
      (by rw [hsame 4 (by omega)]; exact d4)
      (by rw [hsame 5 (by omega)]; exact d5)
      (by rw [hsame 6 (by omega)]; exact e6)
      (by rw [hsame 7 (by omega)]; exact d7)
      (by rw [hsame 8 (by omega)]; exact d8)
      (by rw [hsame 9 (by omega)]; exact d9)
      (by rw [hsame 10 (by omega)]; exact d10)
      (by rw [hsame 10 (by omega), hsame 11 (by omega)]; exact hw11)

theorem emp_trans (pr : Option Char) (u xs y : List Char) (n : Nat)
    (h : matchEMP pr (u ++ '[' :: xs) = some n) (hu : isWordO u.getLast? = false) :
    matchEMP pr (u ++ y) = some 9 := by
  obtain ⟨h9, hw0, cE, cM, cP, cH, d4, d5, d6, d7, d8, hw9⟩ := matchEMP_some h
  have hbr : (u ++ '[' :: xs)[u.length]? = some '[' := bracket_at
  have hlen : 9 ≤ u.length := by
    by_contra hlt
    push_neg at hlt
    set k := u.length with hk
    have hklt : k ≤ 8 := by omega
    interval_cases k
    · rw [hbr] at cE; exact absurd cE (by decide)
    · rw [hbr] at cM; exact absurd cM (by decide)
    · rw [hbr] at cP; exact absurd cP (by decide)
    · rw [hbr] at cH; exact absurd cH (by decide)
    · rw [hbr] at d4; exact absurd d4 (by decide)
    · rw [hbr] at d5; exact absurd d5 (by decide)
    · rw [hbr] at d6; exact absurd d6 (by decide)
    · rw [hbr] at d7; exact absurd d7 (by decide)
    · rw [hbr] at d8; exact absurd d8 (by decide)
  rcases Nat.lt_or_ge u.length 10 with h10 | h10
  · exfalso
    have h9len : u.length = 9 := by omega
    have h8 : (u ++ '[' :: xs)[8]? = u[8]? := getElem?_append_lt (by omega)
    have hlast : u.getLast? = u[8]? := by
      rw [List.getLast?_eq_getElem?, h9len]
    rw [h8] at d8
    rw [hlast] at hu
    cases hu8 : u[8]? with
    | none => rw [hu8] at d8; simp at d8
    | some c =>
      rw [hu8] at d8 hu
      simp only [Option.any_some] at d8
      simp only [isWordO] at hu
      exact absurd (word_of_digit d8) (by simp [hu])
  · have hsame : ∀ i, i < 10 → (u ++ y)[i]? = (u ++ '[' :: xs)[i]? := by
      intro i hi
      rw [getElem?_append_lt (by omega), getElem?_append_lt (by omega)]
    exact matchEMP_intro
      (by rw [hsame 0 (by omega)]; exact hw0)
      (by rw [hsame 0 (by omega)]; exact cE)
      (by rw [hsame 1 (by omega)]; exact cM)
      (by rw [hsame 2 (by omega)]; exact cP)
      (by rw [hsame 3 (by omega)]; exact cH)
      (by rw [hsame 4 (by omega)]; exact d4)
      (by rw [hsame 5 (by omega)]; exact d5)
      (by rw [hsame 6 (by omega)]; exact d6)
      (by rw [hsame 7 (by omega)]; exact d7)
      (by rw [hsame 8 (by omega)]; exact d8)
      (by rw [hsame 8 (by omega), hsame 9 (by omega)]; exact hw9)

/-! ## Per-matcher facts: `matchPROJ` -/

theorem matchPROJ_some {pr : Option Char} {s : List Char} {n : Nat}
    (h : matchPROJ pr s = some n) :
    n = 5 + ((s.drop 5).takeWhile isUpperC).length ∧ wordB pr s[0]? = true ∧
    s[0]? = some 'P' ∧ s[1]? = some 'R' ∧ s[2]? = some 'O' ∧ s[3]? = some 'J' ∧
    s[4]? = some '-' ∧ 3 ≤ ((s.drop 5).takeWhile isUpperC).length ∧
    isWordO (s.drop 5)[((s.drop 5).takeWhile isUpperC).length]? = false := by
  unfold matchPROJ at h
  split at h
  case isTrue hG =>
    simp only [Bool.and_eq_true, beq_iff_eq, and_assoc] at hG
    dsimp only at h
    split at h
    case isTrue hG2 =>
      injection h with hn
      simp only [Bool.and_eq_true, decide_eq_true_eq, Bool.not_eq_true'] at hG2
      exact ⟨hn.symm, hG.1, hG.2.1, hG.2.2.1, hG.2.2.2.1, hG.2.2.2.2.1, hG.2.2.2.2.2,
        by simpa using hG2.1, hG2.2⟩
    case isFalse => exact absurd h (by simp)
  case isFalse => exact absurd h (by simp)

theorem matchPROJ_intro {pr : Option Char} {s : List Char}
    (h1 : wordB pr s[0]? = true) (h2 : s[0]? = some 'P') (h3 : s[1]? = some 'R')
    (h4 : s[2]? = some 'O') (h5 : s[3]? = some 'J') (h6 : s[4]? = some '-')
    (h7 : 3 ≤ ((s.drop 5).takeWhile isUpperC).length)
    (h8 : isWordO (s.drop 5)[((s.drop 5).takeWhile isUpperC).length]? = false) :
    matchPROJ pr s = some (5 + ((s.drop 5).takeWhile isUpperC).length) := by
  unfold matchPROJ
  rw [if_pos]
  · dsimp only
    rw [if_pos]
    simp only [Bool.and_eq_true, decide_eq_true_eq, Bool.not_eq_true']
    exact ⟨by simpa using h7, h8⟩
  · simp only [Bool.and_eq_true, beq_iff_eq, and_assoc]
    exact ⟨h1, h2, h3, h4, h5, h6⟩

theorem proj_pos (pv : Option Char) (s : List Char) (n : Nat)
    (h : matchPROJ pv s = some n) : 1 ≤ n := by
  rw [(matchPROJ_some h).1]; omega

theorem proj_word_head (pr : Option Char) (s : List Char)
    (h : isWordO s.head? = false) : matchPROJ pr s = none := by
  cases hM : matchPROJ pr s with
  | none => rfl
  | some n =>
    obtain ⟨-, -, hP, -⟩ := matchPROJ_some hM
    cases s with
    | nil => simp at hP
    | cons c t =>
      simp only [List.head?, isWordO] at h
      simp only [List.getElem?_cons_zero, Option.some.injEq] at hP
      subst hP
      exact absurd h (by decide)

theorem proj_lead (pv : Option Char) (s : List Char) (n : Nat)
    (h : matchPROJ pv s = some n) : isWordO pv = false := by
  obtain ⟨-, hw, hP, -⟩ := matchPROJ_some h
  rw [hP] at hw
  simp only [wordB, show isWordO (some 'P') = true from by decide] at hw
  simpa using hw

theorem proj_trail (pv : Option Char) (s : List Char) (n : Nat)
    (h : matchPROJ pv s = some n) : isWordO ((s.drop n).head?) = false := by
  obtain ⟨hn, hrest⟩ := matchPROJ_some h
  have hb := hrest.2.2.2.2.2.2.2
  subst hn
  rw [List.head?_drop]
  rw [List.getElem?_drop] at hb
  exact hb

theorem proj_trans (pr : Option Char) (u xs y : List Char) (n : Nat)
    (h : matchPROJ pr (u ++ '[' :: xs) = some n) (hu : isWordO u.getLast? = false) :
    ∃ n2, matchPROJ pr (u ++ y) = some n2 := by
  obtain ⟨hn, hw0, cP, cR, cO, cJ, cH, hcl, hb⟩ := matchPROJ_some h
  have hbr : (u ++ '[' :: xs)[u.length]? = some '[' := bracket_at
  have hlen : 5 ≤ u.length := by
    by_contra hlt
    push_neg at hlt
    set k := u.length with hk
    have hklt : k ≤ 4 := by omega
    interval_cases k
    · rw [hbr] at cP; exact absurd cP (by decide)
    · rw [hbr] at cR; exact absurd cR (by decide)
    · rw [hbr] at cO; exact absurd cO (by decide)
    · rw [hbr] at cJ; exact absurd cJ (by decide)
    · rw [hbr] at cH; exact absurd cH (by decide)
  -- the text after the five fixed characters
  have hdrop : (u ++ '[' :: xs).drop 5 = u.drop 5 ++ '[' :: xs := by
    rw [List.drop_append_eq_append_drop, show 5 - u.length = 0 from by omega]
    rfl
  have hdropy : (u ++ y).drop 5 = u.drop 5 ++ y := by
    rw [List.drop_append_eq_append_drop, show 5 - u.length = 0 from by omega]
    rfl
  -- the capital run stops inside `u` or exactly at the bracket
  have hcapsx : ((u ++ '[' :: xs).drop 5).takeWhile isUpperC =
      (u.drop 5).takeWhile isUpperC := by
    rw [hdrop, takeWhile_append2]
    simp [List.takeWhile_cons, show isUpperC '[' = false from by decide]
  rw [hcapsx] at hcl hb
  set cl := ((u.drop 5).takeWhile isUpperC).length with hcldef
  have hclle : cl ≤ (u.drop 5).length :=
    le_trans (List.Sublist.length_le (List.takeWhile_sublist _)) (Nat.le_refl _)
  rcases Nat.lt_or_ge cl (u.drop 5).length with hlt | hge
  · -- the run and its stopping character lie inside `u`
    have hcapsy : ((u ++ y).drop 5).takeWhile isUpperC = (u.drop 5).takeWhile isUpperC := by
      rw [hdropy, takeWhile_append2]
      have hnall : (u.drop 5).all isUpperC = false := by
        cases hall : (u.drop 5).all isUpperC
        · rfl
        · exfalso
          have heq : (u.drop 5).takeWhile isUpperC = u.drop 5 :=
            List.takeWhile_eq_self_iff.mpr (by simpa [List.all_eq_true] using hall)
          have : cl = (u.drop 5).length := by rw [hcldef, heq]
          omega
      rw [hnall]
      simp
    have hsame : ∀ i, i < 5 → (u ++ y)[i]? = (u ++ '[' :: xs)[i]? := by
      intro i hi
      rw [getElem?_append_lt (by omega), getElem?_append_lt (by omega)]
    refine ⟨5 + ((u.drop 5).takeWhile isUpperC).length, ?_⟩
    have hw0y : wordB pr (u ++ y)[0]? = true := by
      rw [hsame 0 (by omega)]
      exact hw0
    have := matchPROJ_intro (s := u ++ y) hw0y
      (by rw [hsame 0 (by omega)]; exact cP)
      (by rw [hsame 1 (by omega)]; exact cR)
      (by rw [hsame 2 (by omega)]; exact cO)
      (by rw [hsame 3 (by omega)]; exact cJ)
      (by rw [hsame 4 (by omega)]; exact cH)
      ?_ ?_
    · rw [hcapsy] at this
      exact this
    · rw [hcapsy]
      exact hcl
    · rw [hcapsy, hdropy, getElem?_append_lt (by omega)]
      rw [hdrop, getElem?_append_lt (by omega)] at hb
      exact hb
  · -- the run fills `u.drop 5` completely: its last character is `u.getLast`,
    -- an upper-case letter, contradicting the word-boundary before the match
    exfalso
    have hcleq : cl = (u.drop 5).length := Nat.le_antisymm hclle hge
    have hall : (u.drop 5).takeWhile isUpperC = u.drop 5 :=
      (List.takeWhile_sublist _).eq_of_length (by rw [← hcldef, hcleq])
    have hpos : 0 < (u.drop 5).length := by omega
    obtain ⟨c, hc⟩ : ∃ c, (u.drop 5)[(u.drop 5).length - 1]? = some c := by
      rcases hx : (u.drop 5)[(u.drop 5).length - 1]? with _ | c
      · rw [List.getElem?_eq_none_iff] at hx
        omega
      · exact ⟨c, rfl⟩
    have hmem : c ∈ u.drop 5 := List.getElem?_mem hc
    have hupper : isUpperC c = true := by
      rw [← hall] at hmem
      exact takeWhile_all _ _ _ hmem
    have hlen5 : (u.drop 5).length = u.length - 5 := by simp
    have hidx : u.length - 1 = 5 + ((u.drop 5).length - 1) := by omega
    have hgl : u.getLast? = some c := by
      rw [List.getLast?_eq_getElem?, hidx, ← List.getElem?_drop]
      exact hc
    rw [hgl] at hu
    simp only [isWordO, isWordC, isLetterC, hupper] at hu
    simp at hu

/-- The credit-card walk never moves backwards, and the character at the
returned end position (the `\b` witness) is not a word character. -/
theorem ccWalk_bounds : ∀ (f : Nat) (s0 : List Char) (i pos e : Nat), s0.length ≤ f →
    ccWalk i pos s0 = some e → pos ≤ e ∧ isWordO ((s0.drop (e - pos)).head?) = false := by
  intro f
  induction f with
  | zero =>
    intro s0 i pos e hf h
    have hs : s0 = [] := List.length_eq_zero.mp (Nat.le_zero.mp hf)
    subst hs
    rw [ccWalk_nil] at h
    by_cases h13 : 13 ≤ i
    · rw [if_pos h13] at h
      injection h with he
      subst he
      exact ⟨Nat.le_refl _, by simp [isWordO]⟩
    · rw [if_neg h13] at h
      exact absurd h (by simp)
  | succ f ih =>
    intro s0 i pos e hf h
    cases s0 with
    | nil =>
      rw [ccWalk_nil] at h
      by_cases h13 : 13 ≤ i
      · rw [if_pos h13] at h
        injection h with he
        subst he
        exact ⟨Nat.le_refl _, by simp [isWordO]⟩
      · rw [if_neg h13] at h
        exact absurd h (by simp)
    | cons c t =>
      rw [ccWalk_cons] at h
      by_cases h16 : i = 16
      · rw [if_pos h16] at h
        by_cases hwc : isWordC c
        · rw [if_pos hwc] at h
          exact absurd h (by simp)
        · rw [if_neg hwc] at h
          injection h with he
          subst he
          simpa [isWordO] using hwc
      · rw [if_neg h16] at h
        by_cases hd : isDigitC c
        · rw [if_pos hd] at h
          obtain ⟨h1, h2⟩ := ih t (i + 1) (pos + 1) e (by simpa using hf) h
          refine ⟨by omega, ?_⟩
          have hdec : e - pos = (e - (pos + 1)) + 1 := by omega
          rw [hdec, List.drop_succ_cons]
          exact h2
        · rw [if_neg hd] at h
          by_cases h13 : 13 ≤ i
          · rw [if_pos h13] at h
            by_cases hwc : isWordC c
            · rw [if_pos hwc] at h
              exact absurd h (by simp)
            · rw [if_neg hwc] at h
              injection h with he
              subst he
              simpa [isWordO] using hwc
          · rw [if_neg h13] at h
            by_cases hsep : isSepC c
            · rw [if_pos hsep] at h
              cases hdw : t.dropWhile isSepC with
              | nil =>
                rw [hdw] at h
                exact absurd h (by simp)
              | cons d t2 =>
                rw [hdw] at h
                dsimp only at h
                by_cases hdd : isDigitC d
                · rw [if_pos hdd] at h
                  obtain ⟨w1, hw1⟩ : ∃ w1, t.takeWhile isSepC = w1 := ⟨_, rfl⟩
                  rw [hw1] at h
                  have htdec : t = w1 ++ d :: t2 := by
                    conv_lhs => rw [← List.takeWhile_append_dropWhile (p := isSepC) (l := t)]
                    rw [hdw, hw1]
                  have hlen2 : t2.length ≤ f := by
                    have := congrArg List.length htdec
                    simp at this hf
                    omega
                  obtain ⟨h1, h2⟩ := ih t2 (i + 1) (pos + 1 + w1.length + 1) e hlen2 h
                  refine ⟨by omega, ?_⟩
                  have hdec : e - pos =
                      (w1.length + 1 + (e - (pos + 1 + w1.length + 1))) + 1 := by omega
                  rw [hdec, List.drop_succ_cons]
                  conv_lhs => rw [htdec]
                  rw [List.drop_append_eq_append_drop]
                  rw [List.drop_eq_nil_of_le (by omega)]
                  have hidx : w1.length + 1 + (e - (pos + 1 + w1.length + 1)) - w1.length =
                      (e - (pos + 1 + w1.length + 1)) + 1 := by omega
                  rw [hidx, List.nil_append, List.drop_succ_cons]
                  exact h2
                · rw [if_neg hdd] at h
                  exact absurd h (by simp)
            · rw [if_neg hsep] at h
              exact absurd h (by simp)

theorem matchCC_some {pv : Option Char} {s : List Char} {n : Nat}
    (h : matchCC pv s = some n) :
    ∃ c t, s = c :: t ∧ isDigitC c = true ∧ wordB pv (some c) = true ∧
      ccWalk 1 1 t = some n := by
  cases s with
  | nil => exact absurd h (by simp [matchCC])
  | cons c t =>
    unfold matchCC at h
    dsimp only at h
    by_cases hg : (isDigitC c && wordB pv (some c)) = true
    · rw [if_pos hg] at h
      simp only [Bool.and_eq_true] at hg
      exact ⟨c, t, rfl, hg.1, hg.2, h⟩
    · rw [if_neg hg] at h
      exact absurd h (by simp)

theorem cc_pos (pv : Option Char) (s : List Char) (n : Nat)
    (h : matchCC pv s = some n) : 1 ≤ n := by
  obtain ⟨c, t, -, -, -, hw⟩ := matchCC_some h
  exact (ccWalk_bounds t.length t 1 1 n (Nat.le_refl _) hw).1

theorem cc_trail (pv : Option Char) (s : List Char) (n : Nat)
    (h : matchCC pv s = some n) : isWordO ((s.drop n).head?) = false := by
  obtain ⟨c, t, hs, -, -, hw⟩ := matchCC_some h
  obtain ⟨h1, h2⟩ := ccWalk_bounds t.length t 1 1 n (Nat.le_refl _) hw
  subst hs
  have hdec : n = (n - 1) + 1 := by omega
  rw [hdec, List.drop_succ_cons]
  exact h2

theorem cc_lead (pv : Option Char) (s : List Char) (n : Nat)
    (h : matchCC pv s = some n) : isWordO pv = false := by
  obtain ⟨c, t, -, hd, hwb, -⟩ := matchCC_some h
  have hcw : isWordO (some c) = true := word_of_digit hd
  simp only [wordB, hcw] at hwb
  simpa using hwb

theorem cc_word_head (pr : Option Char) (s : List Char)
    (h : isWordO s.head? = false) : matchCC pr s = none := by
  cases hM : matchCC pr s with
  | none => rfl
  | some n =>
    obtain ⟨c, t, hs, hd, -, -⟩ := matchCC_some hM
    subst hs
    simp only [List.head?] at h
    exact absurd (word_of_digit hd) (by simp [isWordO] at h; simp [h])

theorem cc_none_head (pv : Option Char) (c : Char) (w : List Char)
    (hc : isDigitC c = false) : matchCC pv (c :: w) = none := by
  unfold matchCC
  dsimp only
  rw [if_neg]
  simp [hc]

theorem ssn_none_head (pv : Option Char) (s : List Char) (c : Char)
    (h0 : s[0]? = some c) (hc : isDigitC c = false) : matchSSN pv s = none := by
  unfold matchSSN
  rw [if_neg]
  simp [h0, hc]

/-- If the credit-card walk succeeds on `v ++ '[' :: xs` and `v` does not end
in a word character, the walk never reaches the bracket: every consumed or
examined character lies inside `v`, so the same result holds with any
continuation after `v`. -/
theorem ccWalk_bracket_trans : ∀ (f : Nat) (v xs y : List Char) (i pos e : Nat),
    v.length ≤ f → v ≠ [] → isWordO v.getLast? = false →
    ccWalk i pos (v ++ '[' :: xs) = some e → ccWalk i pos (v ++ y) = some e := by
  intro f
  induction f with
  | zero =>
    intro v xs y i pos e hf hne _ _
    exact absurd (List.length_eq_zero.mp (Nat.le_zero.mp hf)) hne
  | succ f ih =>
    intro v xs y i pos e hf hne hlast h
    cases v with
    | nil => exact absurd rfl hne
    | cons a v' =>
      rw [List.cons_append] at h ⊢
      rw [ccWalk_cons] at h ⊢
      by_cases h16 : i = 16
      · rw [if_pos h16] at h ⊢
        exact h
      · rw [if_neg h16] at h ⊢
        by_cases hd : isDigitC a
        · rw [if_pos hd] at h ⊢
          cases v' with
          | nil =>
            exfalso
            rw [List.getLast?_singleton] at hlast
            simp [isWordO, word_of_digit hd] at hlast
          | cons b v'' =>
            rw [List.getLast?_cons_cons] at hlast
            exact ih (b :: v'') xs y (i + 1) (pos + 1) e (by simpa using hf)
              (by simp) hlast h
        · rw [if_neg hd] at h ⊢
          by_cases h13 : 13 ≤ i
          · rw [if_pos h13] at h ⊢
            exact h
          · rw [if_neg h13] at h ⊢
            by_cases hsep : isSepC a
            · rw [if_pos hsep] at h ⊢
              cases hdw : v'.dropWhile isSepC with
              | nil =>
                exfalso
                have hall : v'.all isSepC = true := by
                  rw [List.all_eq_true]
                  exact List.dropWhile_eq_nil_iff.mp hdw
                have hdx : (v' ++ '[' :: xs).dropWhile isSepC = '[' :: xs := by
                  rw [dropWhile_append2, hall]
                  simp [List.dropWhile_cons, show isSepC '[' = false from by decide]
                rw [hdx] at h
                dsimp only at h
                rw [if_neg (by decide)] at h
                exact absurd h (by simp)
              | cons d v'' =>
                have hndall : v'.all isSepC = false := by
                  cases hx : v'.all isSepC
                  · rfl
                  · exfalso
                    have : v'.dropWhile isSepC = [] :=
                      List.dropWhile_eq_nil_iff.mpr (List.all_eq_true.mp hx)
                    rw [hdw] at this
                    exact absurd this (by simp)
                have hvdec : v' = v'.takeWhile isSepC ++ d :: v'' := by
                  conv_lhs => rw [← List.takeWhile_append_dropWhile (p := isSepC) (l := v')]
                  rw [hdw]
                have hvne : v' ≠ [] := by
                  intro hx
                  rw [hx] at hdw
                  exact absurd hdw (by simp)
                have htx : (v' ++ '[' :: xs).takeWhile isSepC = v'.takeWhile isSepC := by
                  rw [takeWhile_append2, hndall]
                  simp
                have hty : (v' ++ y).takeWhile isSepC = v'.takeWhile isSepC := by
                  rw [takeWhile_append2, hndall]
                  simp
                have hdx : (v' ++ '[' :: xs).dropWhile isSepC = d :: (v'' ++ '[' :: xs) := by
                  rw [dropWhile_append2, hndall]
                  simp [hdw]
                have hdy : (v' ++ y).dropWhile isSepC = d :: (v'' ++ y) := by
                  rw [dropWhile_append2, hndall]
                  simp [hdw]
                rw [hdx, htx] at h
                rw [hdy, hty]
                dsimp only at h ⊢
                by_cases hdd : isDigitC d
                · rw [if_pos hdd] at h ⊢
                  have hlast' : isWordO v'.getLast? = false := by
                    have : (a :: v').getLast? = v'.getLast? := by
                      have := List.getLast?_append_of_ne_nil [a] hvne
                      simpa using this
                    rw [← this]
                    exact hlast
                  cases v'' with
                  | nil =>
                    exfalso
                    have : v'.getLast? = some d := by
                      rw [hvdec]
                      exact List.getLast?_concat _
                    rw [this] at hlast'
                    simp [isWordO, word_of_digit hdd] at hlast'
                  | cons b v3 =>
                    have hlast'' : isWordO (b :: v3).getLast? = false := by
                      have h1 : v'.getLast? = (d :: b :: v3).getLast? := by
                        conv_lhs => rw [hvdec]
                        exact List.getLast?_append_of_ne_nil _ (by simp)
                      rw [h1, List.getLast?_cons_cons] at hlast'
                      exact hlast'
                    have hlen3 : (b :: v3).length ≤ f := by
                      have := congrArg List.length hvdec
                      simp at this hf ⊢
                      omega
                    exact ih (b :: v3) xs y (i + 1)
                      (pos + 1 + (v'.takeWhile isSepC).length + 1) e hlen3 (by simp)
                      hlast'' h
                · rw [if_neg hdd] at h
                  exact absurd h (by simp)
            · rw [if_neg hsep] at h
              exact absurd h (by simp)

theorem cc_trans (pr : Option Char) (u xs y : List Char) (n : Nat)
    (h : matchCC pr (u ++ '[' :: xs) = some n) (hu : isWordO u.getLast? = false) :
    matchCC pr (u ++ y) = some n := by
  obtain ⟨c, t, hs, hd, hwb, hw⟩ := matchCC_some h
  cases u with
  | nil =>
    exfalso
    simp only [List.nil_append] at hs
    injection hs with hc ht
    subst hc
    exact absurd hd (by decide)
  | cons a u' =>
    rw [List.cons_append] at hs
    injection hs with hc ht
    subst hc
    cases u' with
    | nil =>
      exfalso
      rw [List.getLast?_singleton] at hu
      simp [isWordO, word_of_digit hd] at hu
    | cons b u'' =>
      rw [List.getLast?_cons_cons] at hu
      simp only [List.cons_append] at ht
      subst ht
      have hwalk : ccWalk 1 1 ((b :: u'') ++ y) = some n :=
        ccWalk_bracket_trans (b :: u'').length (b :: u'') xs y 1 1 n
          (Nat.le_refl _) (by simp) hu hw
      rw [List.cons_append]
      unfold matchCC
      dsimp only
      rw [if_pos (by simp [hd, hwb])]
      exact hwalk

/-! ## Per-matcher facts: `matchEmail` -/

/-- The email pattern has no `\b`, so the matcher ignores the preceding
character entirely. -/
theorem email_prev_irrel (p q : Option Char) (s : List Char) :
    matchEmail p s = matchEmail q s := rfl

theorem matchEmail_some {pv : Option Char} {s : List Char} {n : Nat}
    (h : matchEmail pv s = some n) :
    1 ≤ (s.takeWhile isLocalC).length ∧
    ∃ rest dlen, s.drop (s.takeWhile isLocalC).length = '@' :: rest ∧
      emailDotSearch (rest.takeWhile isDomainC) ((rest.takeWhile isDomainC).length - 1) =
        some dlen ∧
      n = (s.takeWhile isLocalC).length + 1 + dlen := by
  unfold matchEmail at h
  dsimp only at h
  by_cases h0 : (s.takeWhile isLocalC).length = 0
  · rw [if_pos h0] at h
    exact absurd h (by simp)
  · rw [if_neg h0] at h
    refine ⟨by omega, ?_⟩
    split at h
    next rest heq =>
      split at h
      next dlen hds =>
        injection h with hn
        exact ⟨rest, dlen, heq, hds, hn.symm⟩
      next => exact absurd h (by simp)
    next => exact absurd h (by simp)

theorem matchEmail_intro {s rest : List Char} {dlen : Nat} (pv : Option Char)
    (h0 : (s.takeWhile isLocalC).length ≠ 0)
    (h2 : s.drop (s.takeWhile isLocalC).length = '@' :: rest)
    (h3 : emailDotSearch (rest.takeWhile isDomainC)
        ((rest.takeWhile isDomainC).length - 1) = some dlen) :
    matchEmail pv s = some ((s.takeWhile isLocalC).length + 1 + dlen) := by
  unfold matchEmail
  dsimp only
  rw [if_neg h0, h2]
  split
  next rest2 heq =>
    injection heq with hc hr
    subst hr
    rw [h3]
  next hno => exact (hno rest rfl).elim

theorem email_pos (pv : Option Char) (s : List Char) (n : Nat)
    (h : matchEmail pv s = some n) : 1 ≤ n := by
  obtain ⟨h1, rest, dlen, -, -, hn⟩ := matchEmail_some h
  omega

theorem email_none_head (pv : Option Char) (c : Char) (w : List Char)
    (hc : isLocalC c = false) : matchEmail pv (c :: w) = none := by
  cases hM : matchEmail pv (c :: w) with
  | none => rfl
  | some n =>
    obtain ⟨h1, -⟩ := matchEmail_some hM
    simp [List.takeWhile_cons, hc] at h1

theorem email_none_mid (pv : Option Char) (mid w : List Char)
    (hmid : mid.all isLocalC = true) : matchEmail pv (mid ++ ']' :: w) = none := by
  cases hM : matchEmail pv (mid ++ ']' :: w) with
  | none => rfl
  | some n =>
    exfalso
    obtain ⟨h1, rest, dlen, heq, -, -⟩ := matchEmail_some hM
    have htk : (mid ++ ']' :: w).takeWhile isLocalC = mid := by
      rw [takeWhile_append2, hmid]
      simp [List.takeWhile_cons, show isLocalC ']' = false from by decide]
      exact List.all_eq_true.mp hmid
    rw [htk, List.drop_left] at heq
    injection heq with hc
    exact absurd hc (by decide)

/-- Every successful downward dot search exhibits a dot position followed by
at least two letters. -/
theorem emailDotSearch_some_facts (dom : List Char) : ∀ (k r : Nat),
    emailDotSearch dom k = some r →
    ∃ l, 1 ≤ l ∧ l ≤ k ∧ dom[l]? = some '.' ∧
      2 ≤ ((dom.drop (l + 1)).takeWhile isLetterC).length := by
  intro k
  induction k with
  | zero =>
    intro r h
    exact absurd h (by simp [emailDotSearch])
  | succ k ih =>
    intro r h
    unfold emailDotSearch at h
    dsimp only at h
    by_cases hc : dom[k + 1]? = some '.' ∧
        2 ≤ ((dom.drop (k + 2)).takeWhile isLetterC).length
    · exact ⟨k + 1, by omega, Nat.le_refl _, hc.1, hc.2⟩
    · rw [if_neg hc] at h
      obtain ⟨l, hl1, hl2, hdot, hlet⟩ := ih r h
      exact ⟨l, hl1, by omega, hdot, hlet⟩

/-- Conversely, any dot position with two letters inside the searched range
makes the downward search succeed. -/
theorem emailDotSearch_some_of (dom : List Char) : ∀ (k : Nat),
    (∃ l, 1 ≤ l ∧ l ≤ k ∧ dom[l]? = some '.' ∧
      2 ≤ ((dom.drop (l + 1)).takeWhile isLetterC).length) →
    ∃ r, emailDotSearch dom k = some r := by
  intro k
  induction k with
  | zero =>
    rintro ⟨l, hl1, hl2, -, -⟩
    omega
  | succ k ih =>
    rintro ⟨l, hl1, hl2, hdot, hlet⟩
    unfold emailDotSearch
    dsimp only
    by_cases hc : dom[k + 1]? = some '.' ∧
        2 ≤ ((dom.drop (k + 2)).takeWhile isLetterC).length
    · rw [if_pos hc]
      exact ⟨_, rfl⟩
    · rw [if_neg hc]
      apply ih
      rcases Nat.lt_or_ge l (k + 1) with hlt | hge
      · exact ⟨l, hl1, by omega, hdot, hlet⟩
      · exfalso
        have hleq : l = k + 1 := by omega
        subst hleq
        have h12 : k + 1 + 1 = k + 2 := by omega
        rw [h12] at hlet
        exact hc ⟨hdot, hlet⟩

/-- An email match that runs up against an inserted `[`-token still matches
(possibly with a different length) when the token is replaced by any other
continuation: every structural requirement of the pattern is witnessed inside
the text before the bracket, and the runs involved can only grow. -/
theorem email_trans (pr : Option Char) (u xs y : List Char) (n : Nat)
    (h : matchEmail pr (u ++ '[' :: xs) = some n) :
    ∃ n2, matchEmail pr (u ++ y) = some n2 := by
  obtain ⟨h1, rest, dlen, heq, hds, hn⟩ := matchEmail_some h
  have hnall : u.all isLocalC = false := by
    cases hx : u.all isLocalC
    · rfl
    · exfalso
      have htk : (u ++ '[' :: xs).takeWhile isLocalC = u := by
        rw [takeWhile_append2, hx]
        simp [List.takeWhile_cons, show isLocalC '[' = false from by decide]
        exact List.all_eq_true.mp hx
      rw [htk, List.drop_left] at heq
      injection heq with hc
      exact absurd hc (by decide)
  have htkx : (u ++ '[' :: xs).takeWhile isLocalC = u.takeWhile isLocalC := by
    rw [takeWhile_append2, hnall]
    simp
  have htky : (u ++ y).takeWhile isLocalC = u.takeWhile isLocalC := by
    rw [takeWhile_append2, hnall]
    simp
  rw [htkx] at h1 heq
  have hrle : (u.takeWhile isLocalC).length ≤ u.length :=
    List.Sublist.length_le (List.takeWhile_sublist _)
  have hrlt : (u.takeWhile isLocalC).length < u.length := by
    rcases Nat.lt_or_ge (u.takeWhile isLocalC).length u.length with hlt | hge
    · exact hlt
    · exfalso
      have heqw : u.takeWhile isLocalC = u :=
        (List.takeWhile_sublist _).eq_of_length (by omega)
      have hall : u.all isLocalC = true := by
        rw [List.all_eq_true]
        intro x hx2
        exact takeWhile_all isLocalC u x (by rw [heqw]; exact hx2)
      rw [hall] at hnall
      exact absurd hnall (by simp)
  have hdx : (u ++ '[' :: xs).drop (u.takeWhile isLocalC).length =
      u.drop (u.takeWhile isLocalC).length ++ '[' :: xs := by
    rw [List.drop_append_eq_append_drop,
      show (u.takeWhile isLocalC).length - u.length = 0 from by omega]
    simp
  rw [hdx] at heq
  obtain ⟨ud, hud⟩ : ∃ ud, u.drop (u.takeWhile isLocalC).length = '@' :: ud := by
    cases hx : u.drop (u.takeWhile isLocalC).length with
    | nil =>
      exfalso
      have := congrArg List.length hx
      simp at this
      omega
    | cons c ud =>
      rw [hx, List.cons_append] at heq
      injection heq with hc hr
      subst hc
      exact ⟨ud, rfl⟩
  have hrest : rest = ud ++ '[' :: xs := by
    rw [hud, List.cons_append] at heq
    injection heq with hc hr
    exact hr.symm
  subst hrest
  have hdy : (u ++ y).drop ((u ++ y).takeWhile isLocalC).length = '@' :: (ud ++ y) := by
    rw [htky, List.drop_append_eq_append_drop,
      show (u.takeWhile isLocalC).length - u.length = 0 from by omega]
    simp only [List.drop_zero]
    rw [hud, List.cons_append]
  by_cases hdall : ud.all isDomainC = true
  · -- the maximal domain run inside the bracketed text is exactly `ud`;
    -- with `y` instead it only extends, and the dot witness transfers
    have hdomx : (ud ++ '[' :: xs).takeWhile isDomainC = ud := by
      rw [takeWhile_append2, hdall]
      simp [List.takeWhile_cons, show isDomainC '[' = false from by decide]
      exact List.all_eq_true.mp hdall
    have hdomy : (ud ++ y).takeWhile isDomainC = ud ++ y.takeWhile isDomainC := by
      rw [takeWhile_append2, hdall]
      simp
      exact List.all_eq_true.mp hdall
    rw [hdomx] at hds
    obtain ⟨l, hl1, hl2, hdot, hlet⟩ := emailDotSearch_some_facts ud _ _ hds
    have hl2' : l + 1 ≤ ud.length := by
      rcases Nat.lt_or_ge l ud.length with hlt | hge
      · omega
      · exfalso
        rw [List.getElem?_eq_none (by omega)] at hdot
        exact absurd hdot (by simp)
    have hdot' : (ud ++ y.takeWhile isDomainC)[l]? = some '.' := by
      rw [getElem?_append_lt (by omega)]
      exact hdot
    have hlet' : 2 ≤ (((ud ++ y.takeWhile isDomainC).drop (l + 1)).takeWhile
        isLetterC).length := by
      have hsplit : (ud ++ y.takeWhile isDomainC).drop (l + 1) =
          ud.drop (l + 1) ++ y.takeWhile isDomainC := by
        rw [List.drop_append_eq_append_drop, show l + 1 - ud.length = 0 from by omega]
        simp
      rw [hsplit]
      exact le_trans hlet (takeWhile_length_mono _ _ _)
    obtain ⟨r2, hr2⟩ := emailDotSearch_some_of (ud ++ y.takeWhile isDomainC)
      ((ud ++ y.takeWhile isDomainC).length - 1)
      ⟨l, hl1, by simp [List.length_append]; omega, hdot', hlet'⟩
    refine ⟨((u ++ y).takeWhile isLocalC).length + 1 + r2, ?_⟩
    apply matchEmail_intro pr
    · rw [htky]; omega
    · exact hdy
    · rw [hdomy]
      exact hr2
  · -- the domain run already stops inside `u`: everything is unchanged
    have hndall : ud.all isDomainC = false := by
      cases hx : ud.all isDomainC
      · rfl
      · exact absurd hx hdall
    have hdomx : (ud ++ '[' :: xs).takeWhile isDomainC = ud.takeWhile isDomainC := by
      rw [takeWhile_append2, hndall]
      simp
    have hdomy : (ud ++ y).takeWhile isDomainC = ud.takeWhile isDomainC := by
      rw [takeWhile_append2, hndall]
      simp
    rw [hdomx] at hds
    refine ⟨((u ++ y).takeWhile isLocalC).length + 1 + dlen, ?_⟩
    apply matchEmail_intro pr
    · rw [htky]; omega
    · exact hdy
    · rw [hdomy]
      exact hds

/-! ## Rejection of matches inside a replacement token -/

theorem window_drop_append {tok : List Char} (w : List Char) {i j : Nat}
    (h : i + j < tok.length) : (tok.drop i ++ w)[j]? = tok[i + j]? := by
  rw [getElem?_append_lt (by simp; omega), List.getElem?_drop]

theorem getElem?_exists {tok : List Char} {j : Nat} (h : j < tok.length) :
    ∃ c, tok[j]? = some c := by
  cases hx : tok[j]? with
  | none =>
    rw [List.getElem?_eq_none_iff] at hx
    omega
  | some c => exact ⟨c, rfl⟩

theorem emp_none_at0 (pv : Option Char) (s : List Char) (c : Char)
    (h : s[0]? = some c) (hc : c ≠ 'E') : matchEMP pv s = none := by
  unfold matchEMP
  rw [if_neg]
  simp [h, hc]

theorem emp_none_at1 (pv : Option Char) (s : List Char) (c : Char)
    (h : s[1]? = some c) (hc : c ≠ 'M') : matchEMP pv s = none := by
  unfold matchEMP
  rw [if_neg]
  simp [h, hc]

theorem emp_none_at2 (pv : Option Char) (s : List Char) (c : Char)
    (h : s[2]? = some c) (hc : c ≠ 'P') : matchEMP pv s = none := by
  unfold matchEMP
  rw [if_neg]
  simp [h, hc]

theorem emp_none_at3 (pv : Option Char) (s : List Char) (c : Char)
    (h : s[3]? = some c) (hc : c ≠ '-') : matchEMP pv s = none := by
  unfold matchEMP
  rw [if_neg]
  simp [h, hc]

theorem proj_none_at0 (pv : Option Char) (s : List Char) (c : Char)
    (h : s[0]? = some c) (hc : c ≠ 'P') : matchPROJ pv s = none := by
  unfold matchPROJ
  rw [if_neg]
  simp [h, hc]

theorem proj_none_at1 (pv : Option Char) (s : List Char) (c : Char)
    (h : s[1]? = some c) (hc : c ≠ 'R') : matchPROJ pv s = none := by
  unfold matchPROJ
  rw [if_neg]
  simp [h, hc]

theorem proj_none_at2 (pv : Option Char) (s : List Char) (c : Char)
    (h : s[2]? = some c) (hc : c ≠ 'O') : matchPROJ pv s = none := by
  unfold matchPROJ
  rw [if_neg]
  simp [h, hc]

theorem proj_none_at3 (pv : Option Char) (s : List Char) (c : Char)
    (h : s[3]? = some c) (hc : c ≠ 'J') : matchPROJ pv s = none := by
  unfold matchPROJ
  rw [if_neg]
  simp [h, hc]

theorem proj_none_at4 (pv : Option Char) (s : List Char) (c : Char)
    (h : s[4]? = some c) (hc : c ≠ '-') : matchPROJ pv s = none := by
  unfold matchPROJ
  rw [if_neg]
  simp [h, hc]

/-- A token without digits can never host the start of an SSN match. -/
theorem ssn_reject_nodigit (tok : List Char) (hnd : ∀ c ∈ tok, isDigitC c = false) :
    ∀ i pr (w : List Char), i < tok.length → matchSSN pr (tok.drop i ++ w) = none := by
  intro i pr w hi
  obtain ⟨c, hc⟩ := getElem?_exists hi
  refine ssn_none_head pr _ c ?_ (hnd c (List.getElem?_mem hc))
  have h0 : (tok.drop i ++ w)[0]? = tok[i]? := by
    have hb : i + 0 < tok.length := by omega
    have := window_drop_append w hb
    simpa using this
  rw [h0]
  exact hc

/-- A token without digits can never host the start of a credit-card match. -/
theorem cc_reject_nodigit (tok : List Char) (hnd : ∀ c ∈ tok, isDigitC c = false) :
    ∀ i pr (w : List Char), i < tok.length → matchCC pr (tok.drop i ++ w) = none := by
  intro i pr w hi
  obtain ⟨c, hc⟩ := getElem?_exists hi
  have h0 : (tok.drop i ++ w)[0]? = some c := by
    have hb : i + 0 < tok.length := by omega
    have := window_drop_append w hb
    simpa using this ▸ hc
  cases hs : tok.drop i ++ w with
  | nil => rfl
  | cons a t =>
    rw [hs] at h0
    simp only [List.getElem?_cons_zero, Option.some.injEq] at h0
    subst h0
    exact cc_none_head pr a t (hnd a (List.getElem?_mem hc))

/-- A token whose interior characters are all local characters and which ends
in `]` can never host the start of an email match. -/
theorem email_reject_frame (inner : List Char) (hinner : ∀ c ∈ inner, isLocalC c = true) :
    ∀ i pr (w : List Char), i < ('[' :: inner ++ [']']).length →
      matchEmail pr (('[' :: inner ++ [']']).drop i ++ w) = none := by
  intro i pr w hi
  cases i with
  | zero =>
    rw [List.drop_zero, List.cons_append, List.cons_append]
    exact email_none_head pr '[' _ (by decide)
  | succ j =>
    have hj : j ≤ inner.length := by
      simp at hi
      omega
    have hdp : (('[' :: inner ++ [']']).drop (j + 1)) = inner.drop j ++ [']'] := by
      rw [List.cons_append, List.drop_succ_cons, List.drop_append_eq_append_drop,
        show j - inner.length = 0 from by omega]
      simp
    rw [hdp, List.append_assoc, List.singleton_append]
    refine email_none_mid pr _ w ?_
    rw [List.all_eq_true]
    intro c hcm
    exact hinner c (List.mem_of_mem_drop hcm)

/-- A token with no hyphen and a `]` in its tail window can never host the
start of an employee-id match. -/
theorem emp_reject_gen (tok : List Char)
    (hh : ∀ j, j < tok.length → tok[j]? ≠ some '-')
    (hlast : tok.getLast? = some ']') :
    ∀ i pr (w : List Char), i < tok.length → matchEMP pr (tok.drop i ++ w) = none := by
  intro i pr w hi
  by_cases hc3 : i + 3 < tok.length
  · obtain ⟨c, hc⟩ := getElem?_exists hc3
    refine emp_none_at3 pr _ c ?_ ?_
    · rw [window_drop_append w hc3]
      exact hc
    · intro he
      subst he
      exact hh (i + 3) hc3 hc
  · obtain ⟨k, hkdef⟩ : ∃ k, tok.length - 1 - i = k := ⟨_, rfl⟩
    have hk2 : k ≤ 2 := by omega
    have hwk : (tok.drop i ++ w)[k]? = some ']' := by
      rw [window_drop_append w (by omega),
        show i + k = tok.length - 1 from by omega, ← List.getLast?_eq_getElem?]
      exact hlast
    interval_cases k
    · exact emp_none_at0 pr _ ']' hwk (by decide)
    · exact emp_none_at1 pr _ ']' hwk (by decide)
    · exact emp_none_at2 pr _ ']' hwk (by decide)

/-- A token with no hyphen and a `]` in its tail window can never host the
start of a project-code match. -/
theorem proj_reject_gen (tok : List Char)
    (hh : ∀ j, j < tok.length → tok[j]? ≠ some '-')
    (hlast : tok.getLast? = some ']') :
    ∀ i pr (w : List Char), i < tok.length → matchPROJ pr (tok.drop i ++ w) = none := by
  intro i pr w hi
  by_cases hc4 : i + 4 < tok.length
  · obtain ⟨c, hc⟩ := getElem?_exists hc4
    refine proj_none_at4 pr _ c ?_ ?_
    · rw [window_drop_append w hc4]
      exact hc
    · intro he
      subst he
      exact hh (i + 4) hc4 hc
  · obtain ⟨k, hkdef⟩ : ∃ k, tok.length - 1 - i = k := ⟨_, rfl⟩
    have hk2 : k ≤ 3 := by omega
    have hwk : (tok.drop i ++ w)[k]? = some ']' := by
      rw [window_drop_append w (by omega),
        show i + k = tok.length - 1 from by omega, ← List.getLast?_eq_getElem?]
      exact hlast
    interval_cases k
    · exact proj_none_at0 pr _ ']' hwk (by decide)
    · exact proj_none_at1 pr _ ']' hwk (by decide)
    · exact proj_none_at2 pr _ ']' hwk (by decide)
    · exact proj_none_at3 pr _ ']' hwk (by decide)

/-! ## The scan hypotheses for every ordered pair of passes -/

theorem hyps_email_email : ScanHyps matchEmail matchEmail tokEmail where
  mjpos := email_pos
  tokHead := ⟨"REDACTED_EMAIL]".toList, by decide⟩
  reject := by
    intro i pr w hi
    have he : tokEmail = '[' :: "REDACTED_EMAIL".toList ++ [']'] := by decide
    rw [he] at hi ⊢
    exact email_reject_frame _ (by decide) i pr w hi
  flip := fun pv s n q w _ hk _ => by
    rw [email_prev_irrel q ((s.take n).getLast?)]
    exact hk
  trans := fun pr u xs y n _ hk _ => email_trans pr u xs y n hk

theorem hyps_ssn_cc : ScanHyps matchSSN matchCC tokCC where
  mjpos := cc_pos
  tokHead := ⟨"REDACTED_CREDIT_CARD]".toList, by decide⟩
  reject := fun i pr w hi => ssn_reject_nodigit tokCC (by decide) i pr w hi
  flip := fun pv s n q w hj _ hhead =>
    ssn_word_head q w (by rw [hhead]; exact cc_trail pv s n hj)
  trans := fun pr u xs y n m hk hj =>
    ⟨11, ssn_trans pr u xs y n hk (cc_lead u.getLast? y m hj)⟩

theorem hyps_email_ssn : ScanHyps matchEmail matchSSN tokSSN where
  mjpos := ssn_pos
  tokHead := ⟨"REDACTED_SSN]".toList, by decide⟩
  reject := by
    intro i pr w hi
    have he : tokSSN = '[' :: "REDACTED_SSN".toList ++ [']'] := by decide
    rw [he] at hi ⊢
    exact email_reject_frame _ (by decide) i pr w hi
  flip := fun pv s n q w _ hk _ => by
    rw [email_prev_irrel q ((s.take n).getLast?)]
    exact hk
  trans := fun pr u xs y n _ hk _ => email_trans pr u xs y n hk

theorem hyps_email_cc : ScanHyps matchEmail matchCC tokCC where
  mjpos := cc_pos
  tokHead := ⟨"REDACTED_CREDIT_CARD]".toList, by decide⟩
  reject := by
    intro i pr w hi
    have he : tokCC = '[' :: "REDACTED_CREDIT_CARD".toList ++ [']'] := by decide
    rw [he] at hi ⊢
    exact email_reject_frame _ (by decide) i pr w hi
  flip := fun pv s n q w _ hk _ => by
    rw [email_prev_irrel q ((s.take n).getLast?)]
    exact hk
  trans := fun pr u xs y n _ hk _ => email_trans pr u xs y n hk

theorem hyps_email_emp : ScanHyps matchEmail matchEMP tokEMP where
  mjpos := emp_pos
  tokHead := ⟨"REDACTED_EMPLOYEE_ID]".toList, by decide⟩
  reject := by
    intro i pr w hi
    have he : tokEMP = '[' :: "REDACTED_EMPLOYEE_ID".toList ++ [']'] := by decide
    rw [he] at hi ⊢
    exact email_reject_frame _ (by decide) i pr w hi
  flip := fun pv s n q w _ hk _ => by
    rw [email_prev_irrel q ((s.take n).getLast?)]
    exact hk
  trans := fun pr u xs y n _ hk _ => email_trans pr u xs y n hk

theorem hyps_email_proj : ScanHyps matchEmail matchPROJ tokPROJ where
  mjpos := proj_pos
  tokHead := ⟨"REDACTED_PROJECT_CODE]".toList, by decide⟩
  reject := by
    intro i pr w hi
    have he : tokPROJ = '[' :: "REDACTED_PROJECT_CODE".toList ++ [']'] := by decide
    rw [he] at hi ⊢
    exact email_reject_frame _ (by decide) i pr w hi
  flip := fun pv s n q w _ hk _ => by
    rw [email_prev_irrel q ((s.take n).getLast?)]
    exact hk
  trans := fun pr u xs y n _ hk _ => email_trans pr u xs y n hk

theorem hyps_ssn_ssn : ScanHyps matchSSN matchSSN tokSSN where
  mjpos := ssn_pos
  tokHead := ⟨"REDACTED_SSN]".toList, by decide⟩
  reject := fun i pr w hi => ssn_reject_nodigit tokSSN (by decide) i pr w hi
  flip := fun pv s n q w hj _ hhead =>
    ssn_word_head q w (by rw [hhead]; exact ssn_trail pv s n hj)
  trans := fun pr u xs y n m hk hj =>
    ⟨11, ssn_trans pr u xs y n hk (ssn_lead u.getLast? y m hj)⟩

theorem hyps_ssn_emp : ScanHyps matchSSN matchEMP tokEMP where
  mjpos := emp_pos
  tokHead := ⟨"REDACTED_EMPLOYEE_ID]".toList, by decide⟩
  reject := fun i pr w hi => ssn_reject_nodigit tokEMP (by decide) i pr w hi
  flip := fun pv s n q w hj _ hhead =>
    ssn_word_head q w (by rw [hhead]; exact emp_trail pv s n hj)
  trans := fun pr u xs y n m hk hj =>
    ⟨11, ssn_trans pr u xs y n hk (emp_lead u.getLast? y m hj)⟩

theorem hyps_ssn_proj : ScanHyps matchSSN matchPROJ tokPROJ where
  mjpos := proj_pos
  tokHead := ⟨"REDACTED_PROJECT_CODE]".toList, by decide⟩
  reject := fun i pr w hi => ssn_reject_nodigit tokPROJ (by decide) i pr w hi
  flip := fun pv s n q w hj _ hhead =>
    ssn_word_head q w (by rw [hhead]; exact proj_trail pv s n hj)
  trans := fun pr u xs y n m hk hj =>
    ⟨11, ssn_trans pr u xs y n hk (proj_lead u.getLast? y m hj)⟩

theorem hyps_cc_cc : ScanHyps matchCC matchCC tokCC where
  mjpos := cc_pos
  tokHead := ⟨"REDACTED_CREDIT_CARD]".toList, by decide⟩
  reject := fun i pr w hi => cc_reject_nodigit tokCC (by decide) i pr w hi
  flip := fun pv s n q w hj _ hhead =>
    cc_word_head q w (by rw [hhead]; exact cc_trail pv s n hj)
  trans := fun pr u xs y n m hk hj =>
    ⟨n, cc_trans pr u xs y n hk (cc_lead u.getLast? y m hj)⟩

theorem hyps_cc_emp : ScanHyps matchCC matchEMP tokEMP where
  mjpos := emp_pos
  tokHead := ⟨"REDACTED_EMPLOYEE_ID]".toList, by decide⟩
  reject := fun i pr w hi => cc_reject_nodigit tokEMP (by decide) i pr w hi
  flip := fun pv s n q w hj _ hhead =>
    cc_word_head q w (by rw [hhead]; exact emp_trail pv s n hj)
  trans := fun pr u xs y n m hk hj =>
    ⟨n, cc_trans pr u xs y n hk (emp_lead u.getLast? y m hj)⟩

theorem hyps_cc_proj : ScanHyps matchCC matchPROJ tokPROJ where
  mjpos := proj_pos
  tokHead := ⟨"REDACTED_PROJECT_CODE]".toList, by decide⟩
  reject := fun i pr w hi => cc_reject_nodigit tokPROJ (by decide) i pr w hi
  flip := fun pv s n q w hj _ hhead =>
    cc_word_head q w (by rw [hhead]; exact proj_trail pv s n hj)
  trans := fun pr u xs y n m hk hj =>
    ⟨n, cc_trans pr u xs y n hk (proj_lead u.getLast? y m hj)⟩

theorem hyps_emp_emp : ScanHyps matchEMP matchEMP tokEMP where
  mjpos := emp_pos
  tokHead := ⟨"REDACTED_EMPLOYEE_ID]".toList, by decide⟩
  reject := fun i pr w hi => emp_reject_gen tokEMP (by decide) (by decide) i pr w hi
  flip := fun pv s n q w hj _ hhead =>
    emp_word_head q w (by rw [hhead]; exact emp_trail pv s n hj)
  trans := fun pr u xs y n m hk hj =>
    ⟨9, emp_trans pr u xs y n hk (emp_lead u.getLast? y m hj)⟩

theorem hyps_emp_proj : ScanHyps matchEMP matchPROJ tokPROJ where
  mjpos := proj_pos
  tokHead := ⟨"REDACTED_PROJECT_CODE]".toList, by decide⟩
  reject := fun i pr w hi => emp_reject_gen tokPROJ (by decide) (by decide) i pr w hi
  flip := fun pv s n q w hj _ hhead =>
    emp_word_head q w (by rw [hhead]; exact proj_trail pv s n hj)
  trans := fun pr u xs y n m hk hj =>
    ⟨9, emp_trans pr u xs y n hk (proj_lead u.getLast? y m hj)⟩

theorem hyps_proj_proj : ScanHyps matchPROJ matchPROJ tokPROJ where
  mjpos := proj_pos
  tokHead := ⟨"REDACTED_PROJECT_CODE]".toList, by decide⟩
  reject := fun i pr w hi => proj_reject_gen tokPROJ (by decide) (by decide) i pr w hi
  flip := fun pv s n q w hj _ hhead =>
    proj_word_head q w (by rw [hhead]; exact proj_trail pv s n hj)
  trans := fun pr u xs y n m hk hj =>
    proj_trans pr u xs y n hk (proj_lead u.getLast? y m hj)

/-! ## No residual matches after `check_pii` -/

theorem piiPass_clean (M : Option Char → List Char → Option Nat) (tok : List Char)
    (H : ScanHyps M M tok) (s : List Char) :
    searchM M none (piiPass M tok s).2 = false := by
  unfold piiPass
  by_cases hs : searchM M none s = true
  · rw [if_pos hs]
    exact scan_clean M tok H s none
  · rw [if_neg hs]
    exact Bool.not_eq_true _ ▸ (by simpa using hs)

theorem piiPass_preserve (Mk Mj : Option Char → List Char → Option Nat) (tokj : List Char)
    (H : ScanHyps Mk Mj tokj) (s : List Char) (h : searchM Mk none s = false) :
    searchM Mk none (piiPass Mj tokj s).2 = false := by
  unfold piiPass
  by_cases hs : searchM Mj none s = true
  · rw [if_pos hs]
    exact scan_preserve Mk Mj tokj H s none h
  · rw [if_neg hs]
    exact h

/-- After the whole `check_pii` loop, none of the five patterns matches
anywhere in the redacted text. -/
theorem checkPii_no_residual (s : List Char) :
    searchM matchEmail none (checkPiiStr s).2 = false ∧
    searchM matchSSN none (checkPiiStr s).2 = false ∧
    searchM matchCC none (checkPiiStr s).2 = false ∧
    searchM matchEMP none (checkPiiStr s).2 = false ∧
    searchM matchPROJ none (checkPiiStr s).2 = false := by
  have hout : (checkPiiStr s).2 =
      (piiPass matchPROJ tokPROJ
        (piiPass matchEMP tokEMP
          (piiPass matchCC tokCC
            (piiPass matchSSN tokSSN
              (piiPass matchEmail tokEmail s).2).2).2).2).2 := rfl
  rw [hout]
  refine ⟨?_, ?_, ?_, ?_, ?_⟩
  · exact piiPass_preserve _ _ _ hyps_email_proj _
      (piiPass_preserve _ _ _ hyps_email_emp _
        (piiPass_preserve _ _ _ hyps_email_cc _
          (piiPass_preserve _ _ _ hyps_email_ssn _
            (piiPass_clean _ _ hyps_email_email s))))
  · exact piiPass_preserve _ _ _ hyps_ssn_proj _
      (piiPass_preserve _ _ _ hyps_ssn_emp _
        (piiPass_preserve _ _ _ hyps_ssn_cc _
          (piiPass_clean _ _ hyps_ssn_ssn _)))
  · exact piiPass_preserve _ _ _ hyps_cc_proj _
      (piiPass_preserve _ _ _ hyps_cc_emp _
        (piiPass_clean _ _ hyps_cc_cc _))
  · exact piiPass_preserve _ _ _ hyps_emp_proj _
      (piiPass_clean _ _ hyps_emp_emp _)
  · exact piiPass_clean _ _ hyps_proj_proj _

/-! ## Email-shaped substrings (the specification's formulation) -/

theorem searchM_true_split (M : Option Char → List Char → Option Nat) :
    ∀ (s : List Char) (prev : Option Char), searchM M prev s = true →
    ∃ a v n, s = a ++ v ∧ M (lastP prev a) v = some n := by
  intro s
  induction s with
  | nil =>
    intro prev h
    exact absurd h (by simp [searchM_nil])
  | cons c t ih =>
    intro prev h
    rw [searchM_cons] at h
    rcases Bool.or_eq_true_iff.mp h with h1 | h2
    · obtain ⟨n, hn⟩ := Option.isSome_iff_exists.mp h1
      exact ⟨[], c :: t, n, rfl, hn⟩
    · obtain ⟨a, v, n, ht, hM⟩ := ih (some c) h2
      refine ⟨c :: a, v, n, by rw [List.cons_append, ht], ?_⟩
      rw [lastP_cons]
      exact hM

theorem searchM_of_split (M : Option Char → List Char → Option Nat)
    (hirr : ∀ p q s, M p s = M q s) (hnil : ∀ p, M p [] = none) :
    ∀ (a v : List Char) (prev pv : Option Char) (n : Nat),
    M pv v = some n → searchM M prev (a ++ v) = true := by
  intro a
  induction a with
  | nil =>
    intro v prev pv n hM
    cases v with
    | nil => rw [hnil] at hM; exact absurd hM (by simp)
    | cons c t =>
      rw [List.nil_append, searchM_cons, hirr prev pv]
      simp [hM]
  | cons c a' ih =>
    intro v prev pv n hM
    rw [List.cons_append, searchM_cons, ih v (some c) pv n hM]
    simp

/-- The specification's notion of an email-shaped substring, transcribed from
its words: somewhere in the text there is a non-empty run of local
characters, an `@`, a non-empty run of domain characters, a dot and at least
two letters. -/
def hasEmailShape (s : List Char) : Prop :=
  ∃ a l d t b : List Char,
    s = a ++ (l ++ ('@' :: (d ++ ('.' :: (t ++ b))))) ∧
    l ≠ [] ∧ (∀ c ∈ l, isLocalC c = true) ∧
    d ≠ [] ∧ (∀ c ∈ d, isDomainC c = true) ∧
    2 ≤ t.length ∧ (∀ c ∈ t, isLetterC c = true)

theorem domain_of_letter {c : Char} (h : isLetterC c = true) : isDomainC c = true := by
  simp [isDomainC, h]

theorem getElem?_append_cons {u z : List Char} {c : Char} :
    (u ++ c :: z)[u.length]? = some c := by
  rw [List.getElem?_append_right (Nat.le_refl _)]
  simp

theorem drop_cons_of_getElem? {l : List Char} {i : Nat} {c : Char}
    (h : l[i]? = some c) : l.drop i = c :: l.drop (i + 1) := by
  have hb : i < l.length := by
    by_contra hx
    push_neg at hx
    rw [List.getElem?_eq_none (by omega)] at h
    simp at h
  obtain ⟨h2, e⟩ := List.getElem?_eq_some_iff.mp h
  rw [List.drop_eq_getElem_cons hb, e]

/-- `matchEmail` never matches the empty remainder. -/
theorem email_nil (p : Option Char) : matchEmail p [] = none := rfl

/-- The specification's email shape coincides with the embedded matcher: a
text has an email-shaped substring exactly when the leftmost-match search of
the email pattern succeeds on it. -/
theorem emailShape_iff (s : List Char) :
    hasEmailShape s ↔ searchM matchEmail none s = true := by
  constructor
  · rintro ⟨a, l, d, t, b, hs, hl, hlc, hd, hdc, ht, htc⟩
    subst hs
    have hla : l.all isLocalC = true := List.all_eq_true.mpr hlc
    have hda : d.all isDomainC = true := List.all_eq_true.mpr hdc
    have hta : t.all isDomainC = true :=
      List.all_eq_true.mpr fun c hc => domain_of_letter (htc c hc)
    have htl : (l ++ ('@' :: (d ++ ('.' :: (t ++ b))))).takeWhile isLocalC = l := by
      rw [takeWhile_append2, hla]
      simp [List.takeWhile_cons, show isLocalC '@' = false from by decide]
      exact hlc
    have h2 : (l ++ ('@' :: (d ++ ('.' :: (t ++ b))))).drop
        ((l ++ ('@' :: (d ++ ('.' :: (t ++ b))))).takeWhile isLocalC).length =
        '@' :: (d ++ ('.' :: (t ++ b))) := by
      rw [htl, List.drop_left]
    have hdt : d.takeWhile isDomainC = d := List.takeWhile_eq_self_iff.mpr hdc
    have htt : t.takeWhile isDomainC = t :=
      List.takeWhile_eq_self_iff.mpr fun c hc => domain_of_letter (htc c hc)
    have hdom : (d ++ ('.' :: (t ++ b))).takeWhile isDomainC =
        d ++ ('.' :: (t ++ b.takeWhile isDomainC)) := by
      rw [takeWhile_append2, hda, if_pos rfl, List.takeWhile_cons,
        if_pos (show isDomainC '.' = true from by decide),
        takeWhile_append2, hta, if_pos rfl, hdt, htt]
    have hdrop : (d ++ ('.' :: (t ++ b.takeWhile isDomainC))).drop (d.length + 1) =
        t ++ b.takeWhile isDomainC := by
      have hx : d ++ ('.' :: (t ++ b.takeWhile isDomainC)) =
          (d ++ ['.']) ++ (t ++ b.takeWhile isDomainC) := by
        simp
      rw [hx, show d.length + 1 = (d ++ ['.']).length from by simp, List.drop_left]
    obtain ⟨r2, hr2⟩ := emailDotSearch_some_of (d ++ ('.' :: (t ++ b.takeWhile isDomainC)))
      ((d ++ ('.' :: (t ++ b.takeWhile isDomainC))).length - 1)
      ⟨d.length, List.length_pos.mpr hd,
        by simp only [List.length_append, List.length_cons]; omega,
        getElem?_append_cons, by
          rw [hdrop]
          calc 2 ≤ t.length := ht
            _ = (t.takeWhile isLetterC).length := by
                  rw [List.takeWhile_eq_self_iff.mpr htc]
            _ ≤ ((t ++ b.takeWhile isDomainC).takeWhile isLetterC).length :=
                  takeWhile_length_mono _ _ _⟩
    have hm := matchEmail_intro (s := l ++ ('@' :: (d ++ ('.' :: (t ++ b))))) none
      (by rw [htl]; simpa using hl) h2 (by rw [hdom]; exact hr2)
    exact searchM_of_split matchEmail email_prev_irrel email_nil a _ none none _ hm
  · intro h
    obtain ⟨a, v, n, hs, hM⟩ := searchM_true_split matchEmail s none h
    obtain ⟨h1, rest, dlen, heq, hds, -⟩ := matchEmail_some hM
    obtain ⟨lp, hlp1, hlp2, hdot, hlet⟩ := emailDotSearch_some_facts _ _ _ hds
    obtain ⟨vr, hvr⟩ := List.takeWhile_prefix (l := v) (p := isLocalC)
    have hvrd : v.drop (v.takeWhile isLocalC).length = vr := by
      have h0 := List.drop_left (v.takeWhile isLocalC) vr
      rw [hvr] at h0
      exact h0
    rw [hvrd] at heq
    obtain ⟨rr, hrr⟩ := List.takeWhile_prefix (l := rest) (p := isDomainC)
    have hdomlen : 1 ≤ (rest.takeWhile isDomainC).length := by omega
    have hlplt : lp < (rest.takeWhile isDomainC).length := by
      by_contra hx
      push_neg at hx
      rw [List.getElem?_eq_none (by omega)] at hdot
      simp at hdot
    have hdsplit : rest.takeWhile isDomainC =
        (rest.takeWhile isDomainC).take lp ++
          '.' :: (rest.takeWhile isDomainC).drop (lp + 1) := by
      conv_lhs => rw [← List.take_append_drop lp (rest.takeWhile isDomainC)]
      rw [drop_cons_of_getElem? hdot]
    obtain ⟨db, hdb⟩ := List.takeWhile_prefix
      (l := (rest.takeWhile isDomainC).drop (lp + 1)) (p := isLetterC)
    refine ⟨a, v.takeWhile isLocalC, (rest.takeWhile isDomainC).take lp,
      ((rest.takeWhile isDomainC).drop (lp + 1)).takeWhile isLetterC,
      db ++ rr, ?_, ?_, ?_, ?_, ?_, ?_, ?_⟩
    · calc s = a ++ v := hs
        _ = a ++ (v.takeWhile isLocalC ++ vr) := by rw [hvr]
        _ = a ++ (v.takeWhile isLocalC ++ ('@' :: rest)) := by rw [heq]
        _ = a ++ (v.takeWhile isLocalC ++ ('@' :: (rest.takeWhile isDomainC ++ rr))) := by
              rw [hrr]
        _ = a ++ (v.takeWhile isLocalC ++
              ('@' :: (((rest.takeWhile isDomainC).take lp ++
                '.' :: (rest.takeWhile isDomainC).drop (lp + 1)) ++ rr))) := by
              conv_lhs => rw [hdsplit]
        _ = a ++ (v.takeWhile isLocalC ++
              ('@' :: (((rest.takeWhile isDomainC).take lp ++
                '.' :: (((rest.takeWhile isDomainC).drop (lp + 1)).takeWhile isLetterC ++
                  db)) ++ rr))) := by
              conv_lhs => rw [← hdb]
        _ = _ := by simp [List.append_assoc]
    · intro hx
      rw [hx] at h1
      simp at h1
    · exact takeWhile_all _ _
    · intro hx
      have hlen := congrArg List.length hx
      rw [List.length_take, List.length_nil] at hlen
      omega
    · intro c hc
      have hcm : c ∈ rest.takeWhile isDomainC := List.mem_of_mem_take hc
      exact takeWhile_all _ _ c hcm
    · exact hlet
    · exact takeWhile_all _ _

/-- **C2.** The text returned by `check_pii` contains no remaining match of
any of the five patterns — in particular of any pattern whose category was
reported as found: the passes run in the fixed order email, SSN, credit
card, employee id, project code, each replacing every non-overlapping match
of its pattern on the already-partially-redacted text. In particular a text
with an email-shaped substring is reported as found, and the output never
contains an email-shaped substring. -/
theorem claim_C2 (s : List Char) :
    searchM matchEmail none (checkPiiStr s).2 = false ∧
    searchM matchSSN none (checkPiiStr s).2 = false ∧
    searchM matchCC none (checkPiiStr s).2 = false ∧
    searchM matchEMP none (checkPiiStr s).2 = false ∧
    searchM matchPROJ none (checkPiiStr s).2 = false ∧
    ¬ hasEmailShape (checkPiiStr s).2 ∧
    (hasEmailShape s → (checkPiiStr s).1 = true) := by
  obtain ⟨h1, h2, h3, h4, h5⟩ := checkPii_no_residual s
  refine ⟨h1, h2, h3, h4, h5, ?_, ?_⟩
  · intro hshape
    rw [emailShape_iff] at hshape
    exact absurd hshape (by simp [h1])
  · intro hshape
    rw [emailShape_iff s] at hshape
    have hp1 : (piiPass matchEmail tokEmail s).1 = true := by
      unfold piiPass
      rw [if_pos hshape]
    show (checkPiiStr s).1 = true
    unfold checkPiiStr
    dsimp only
    rw [hp1]
    simp

/-- Witness: a concrete email-shaped input is reported as found. -/
theorem claim_C2_witness :
    hasEmailShape "a@b.cd".toList ∧ (checkPiiStr "a@b.cd".toList).1 = true := by
  have hshape : hasEmailShape "a@b.cd".toList :=
    ⟨[], ['a'], ['b'], ['c', 'd'], [], by decide, by decide, by decide, by decide,
      by decide, by decide, by decide⟩
  exact ⟨hshape, (claim_C2 "a@b.cd".toList).2.2.2.2.2.2 hshape⟩

/-- **C9.** `check_pii` is idempotent: on its own redacted output it finds
nothing and returns the text unchanged, because no placeholder token
re-matches any source pattern. -/
theorem claim_C9 (s : List Char) :
    checkPiiStr ((checkPiiStr s).2) = (false, (checkPiiStr s).2) := by
  obtain ⟨h1, h2, h3, h4, h5⟩ := checkPii_no_residual s
  obtain ⟨r, hr⟩ : ∃ r, (checkPiiStr s).2 = r := ⟨_, rfl⟩
  rw [hr] at h1 h2 h3 h4 h5
  rw [hr]
  have e1 : piiPass matchEmail tokEmail r = (false, r) := by
    unfold piiPass
    rw [h1]
    simp
  have e2 : piiPass matchSSN tokSSN r = (false, r) := by
    unfold piiPass
    rw [h2]
    simp
  have e3 : piiPass matchCC tokCC r = (false, r) := by
    unfold piiPass
    rw [h3]
    simp
  have e4 : piiPass matchEMP tokEMP r = (false, r) := by
    unfold piiPass
    rw [h4]
    simp
  have e5 : piiPass matchPROJ tokPROJ r = (false, r) := by
    unfold piiPass
    rw [h5]
    simp
  show checkPiiStr r = (false, r)
  simp [checkPiiStr, e1, e2, e3, e4, e5]
